import Mathlib

/-! # Active block requests (libtransmission/peer-mgr-active-requests.cc)

A shallow embedding of `ActiveRequests`, the registry of outstanding block
requests.  The C++ class keeps one member,

    std::map<tr_block_index_t, std::set<peer_at>> blocks_;

Both containers are ordered and duplicate free with respect to their
comparator.  They are embedded as lists kept in strictly ascending comparator
order; every container operation walks the list using the comparator only,
in the way the ordered tree does.  A block index (`tr_block_index_t`) is a
natural number, a pointer to a peer (`tr_peer*`) is the natural number of its
address, and a time (`time_t`) is an integer.
-/

namespace ActiveRequests

/-- The set element: a peer together with the time the request was sent. -/
structure peer_at where
  peer : Nat
  when : Int
deriving DecidableEq

/-- Three way comparison of the source: only the `peer` field takes part. -/
def peer_at.compare (self that : peer_at) : Int :=
  if self.peer ≠ that.peer then
    (if self.peer < that.peer then -1 else 1)
  else
    0

/-- The source's `operator<`, the comparator of `std::set<peer_at>`. -/
def peer_at.lt (self that : peer_at) : Bool :=
  decide (self.compare that < 0)

/-- The value type of the map: a `std::set<peer_at>`. -/
abbrev PeerSet := List peer_at

/-- The member `blocks_`: a `std::map` from block index to peer set. -/
abbrev Blocks := List (Nat × PeerSet)

/-! ## `std::set<peer_at>` -/

/-- The call `set::emplace(peer, when)`: the new set and whether the element was inserted. -/
def set_emplace : PeerSet → peer_at → PeerSet × Bool
  | [], x => ([x], true)
  | y :: ys, x =>
    if y.lt x then
      ((y :: (set_emplace ys x).1), (set_emplace ys x).2)
    else if x.lt y then
      (x :: y :: ys, true)
    else
      (y :: ys, false)

/-- The call `set::count(key)`: number of elements equivalent to `key`. -/
def set_count : PeerSet → peer_at → Nat
  | [], _ => 0
  | y :: ys, key =>
    if y.lt key then set_count ys key
    else if key.lt y then 0
    else 1

/-- The call `set::erase(key)`: the new set and the number of elements erased. -/
def set_erase : PeerSet → peer_at → PeerSet × Nat
  | [], _ => ([], 0)
  | y :: ys, key =>
    if y.lt key then
      ((y :: (set_erase ys key).1), (set_erase ys key).2)
    else if key.lt y then
      (y :: ys, 0)
    else
      (ys, 1)

/-! ## `std::map<tr_block_index_t, std::set<peer_at>>` -/

/-- The call `map::find(block)`: the mapped set, or `none` for `end()`. -/
def map_find : Blocks → Nat → Option PeerSet
  | [], _ => none
  | (k, s) :: rest, block =>
    if k < block then map_find rest block
    else if block < k then none
    else some s

/-- The call `map::operator[](block)`: a missing key is inserted with an empty set. -/
def map_subscript : Blocks → Nat → Blocks
  | [], block => [(block, [])]
  | (k, s) :: rest, block =>
    if k < block then (k, s) :: map_subscript rest block
    else if block < k then (block, []) :: (k, s) :: rest
    else (k, s) :: rest

/-- Writing the mapped set of an existing key through a reference or iterator. -/
def map_store : Blocks → Nat → PeerSet → Blocks
  | [], _, _ => []
  | (k, s) :: rest, block, v =>
    if k < block then (k, s) :: map_store rest block v
    else if block < k then (k, s) :: rest
    else (k, v) :: rest

/-- The call `map::erase` of the entry with key `block`. -/
def map_erase : Blocks → Nat → Blocks
  | [], _ => []
  | (k, s) :: rest, block =>
    if k < block then (k, s) :: map_erase rest block
    else if block < k then (k, s) :: rest
    else rest

/-- The call `map::count(block)`: number of entries with that key. -/
def map_count (m : Blocks) (block : Nat) : Nat :=
  match map_find m block with
  | some _ => 1
  | none => 0

/-! ## `ActiveRequests` -/

/-- A freshly constructed registry. -/
def empty : Blocks := []

/-- Method `ActiveRequests::add(block, peer, when)`. -/
def add (blocks_ : Blocks) (block : Nat) (peer : Nat) (when : Int) :
    Blocks × Bool :=
  let m := map_subscript blocks_ block
  let r := set_emplace ((map_find m block).getD []) ⟨peer, when⟩
  (map_store m block r.1, r.2)

/-- Method `ActiveRequests::remove(block, peer)`: remove a request to `peer` for `block`. -/
def remove (blocks_ : Blocks) (block : Nat) (peer : Nat) : Blocks × Bool :=
  match map_find blocks_ block with
  | none => (blocks_, false)
  | some s =>
    let r := set_erase s ⟨peer, 0⟩
    let removed := r.2 != 0
    let m := map_store blocks_ block r.1
    if removed && r.1.isEmpty then (map_erase m block, removed) else (m, removed)

/-- Method `ActiveRequests::remove(peer)`: remove requests to `peer`, return the blocks. -/
def remove_peer (blocks_ : Blocks) (peer : Nat) : Blocks × List Nat :=
  let removed := (blocks_.filter (fun it => set_count it.2 ⟨peer, 0⟩ != 0)).map Prod.fst
  (removed.foldl (fun m block => (remove m block peer).1) blocks_, removed)

/-- Method `ActiveRequests::remove(block)`: remove requests for `block`, return the peers. -/
def remove_block (blocks_ : Blocks) (block : Nat) : Blocks × List Nat :=
  match map_find blocks_ block with
  | some s => (map_erase blocks_ block, s.map peer_at.peer)
  | none => (blocks_, [])

/-- Method `ActiveRequests::has(block, peer)`. -/
def has (blocks_ : Blocks) (block : Nat) (peer : Nat) : Bool :=
  match map_find blocks_ block with
  | none => false
  | some s => set_count s ⟨peer, 0⟩ != 0

/-- Method `ActiveRequests::count(block)`. -/
def count_block (blocks_ : Blocks) (block : Nat) : Nat :=
  map_count blocks_ block

/-- Method `ActiveRequests::count(peer)`. -/
def count_peer (blocks_ : Blocks) (peer : Nat) : Nat :=
  blocks_.countP (fun reqs => set_count reqs.2 ⟨peer, 0⟩ != 0)

/-- Method `ActiveRequests::size()`. -/
def size (blocks_ : Blocks) : Nat :=
  blocks_.foldl (fun sum it => sum + it.2.length) 0

/-- Method `ActiveRequests::sentBefore(when)`. -/
def sentBefore (blocks_ : Blocks) (when : Int) : List (Nat × Nat) :=
  blocks_.foldl
    (fun sent_before perblock =>
      perblock.2.foldl
        (fun acc sent => if sent.when < when then acc ++ [(perblock.1, sent.peer)] else acc)
        sent_before)
    []

/-! ## Abstract view and representation invariant -/

/-- The relation the registry stands for: all (block, peer, requestedAt) triples. -/
def triples (blocks_ : Blocks) : List (Nat × Nat × Int) :=
  blocks_.flatMap (fun e => e.2.map (fun x => (e.1, x.peer, x.when)))

/-- Ordering invariant of a `std::set<peer_at>`: strictly ascending by `peer`. -/
def set_wf (s : PeerSet) : Prop :=
  s.Pairwise (fun a b => a.peer < b.peer)

/-- Keys of the map in strictly ascending order. -/
def keys_sorted (m : Blocks) : Prop :=
  m.Pairwise (fun a b => a.1 < b.1)

/-- Ordering invariant of `blocks_`: keys strictly ascending, every mapped set ordered. -/
def WF (m : Blocks) : Prop :=
  keys_sorted m ∧ ∀ e ∈ m, set_wf e.2

instance (s : PeerSet) : Decidable (set_wf s) := by
  unfold set_wf; infer_instance

instance (m : Blocks) : Decidable (keys_sorted m) := by
  unfold keys_sorted; infer_instance

instance (m : Blocks) : Decidable (WF m) := by
  unfold WF; infer_instance

/-- The scenario of the specification: A requests 1, 2, 3 at 100, then B requests 2 at 105. -/
def scenario (A B : Nat) : Blocks :=
  (add (add (add (add empty 1 A 100).1 2 A 100).1 3 A 100).1 2 B 105).1

/-! ## Auxiliary definitions used in the proofs -/

/-- The second loop of `remove(peer)`: `remove(block, peer)` for every collected block. -/
def remove_each (peer : Nat) (removed : List Nat) (blocks_ : Blocks) : Blocks :=
  removed.foldl (fun m block => (remove m block peer).1) blocks_

/-- The first loop of `remove(peer)`: the blocks whose set holds a request to `peer`. -/
def blocks_of_peer (blocks_ : Blocks) (peer : Nat) : List Nat :=
  (blocks_.filter (fun it => set_count it.2 ⟨peer, 0⟩ != 0)).map Prod.fst

/-- The pairs one map entry contributes to `sentBefore`. -/
def sent_of_entry (c : Int) (e : Nat × PeerSet) : List (Nat × Nat) :=
  (e.2.filter (fun x => decide (x.when < c))).map (fun x => (e.1, x.peer))

/-- The (block, peer) pairs with an outstanding request, in map order. -/
def pairs (blocks_ : Blocks) : List (Nat × Nat) :=
  (triples blocks_).map (fun x => (x.1, x.2.1))

/-- The distinct peers that appear in the registry. -/
def peers_of (blocks_ : Blocks) : List Nat :=
  ((triples blocks_).map (fun x => x.2.1)).dedup

/-- No block key of the map is associated with an empty peer set. -/
def no_empty_set (m : Blocks) : Prop :=
  ∀ e ∈ m, e.2 ≠ []

/-- The registry states that calls of the public methods produce from a fresh registry. -/
inductive Reachable : Blocks → Prop
  | init : Reachable empty
  | add (m : Blocks) (b p : Nat) (t : Int) : Reachable m → Reachable (add m b p t).1
  | remove (m : Blocks) (b p : Nat) : Reachable m → Reachable (remove m b p).1
  | remove_peer (m : Blocks) (p : Nat) : Reachable m → Reachable (remove_peer m p).1
  | remove_block (m : Blocks) (b : Nat) : Reachable m → Reachable (remove_block m b).1

end ActiveRequests

/-! # Encrypted peer channel (libtransmission/crypto.h)

Only the declarations of crypto.h are part of the sources; the behaviour of the channel is
modelled from sections 3, 4.1, 4.2 and 4.3 of the specification.
-/

namespace Crypto

/-- Length in bytes of a Diffie-Hellman public key (`KEY_LEN` of crypto.h). -/
def KEY_LEN : Nat := 96

/-- Modelled from the spec: the primitives that sections 4.1 and 4.2 leave open (the bodies
behind crypto.h and crypto-utils.h are missing): the Diffie-Hellman group, the hash that
derives cipher keys, and the keystream of the stream cipher, byte `i` of the stream of a key
being `keystream key i`. -/
structure Primitives where
  modulus : Nat
  generator : Nat
  hash : List Nat → List Nat
  keystream : List Nat → Nat → Nat

/-- Modelled from the spec: the role of a channel (section 3), fixed at construction; the
field `isIncoming` of `tr_crypto` is true for the responder. -/
inductive Role where
  | Initiator
  | Responder
deriving DecidableEq

/-- Modelled from the spec: the error kinds of section 7. -/
inductive Error where
  | InvalidPeerKey
  | AlreadyComputed
  | HashMismatch
  | NotReady
deriving DecidableEq

/-- Modelled from the spec: the state of a StreamCipher (section 4.2), a key together with the
number of keystream bytes already consumed (the missing `arc4_context`). -/
structure CipherState where
  key : List Nat
  pos : Nat
deriving DecidableEq

/-- Modelled from the spec: StreamCipher `init(key)` (section 4.2), deterministic given the
key. -/
def cipher_init (key : List Nat) : CipherState :=
  ⟨key, 0⟩

/-- Modelled from the spec: StreamCipher `apply(state, inputBytes)` (section 4.2): XORs the
input against the next N keystream bytes and advances the state by N bytes. -/
def cipher_apply (P : Primitives) : CipherState → List Nat → List Nat × CipherState
  | st, [] => ([], st)
  | st, b :: bs =>
    let r := cipher_apply P ⟨st.key, st.pos + 1⟩ bs
    ((b ^^^ P.keystream st.key st.pos) :: r.1, r.2)

/-- Modelled from the spec: KeyAgreement, the public value that belongs to a private value
(section 4.1, `generateKeyPair`). -/
def public_of (P : Primitives) (privateState : Nat) : Nat :=
  P.generator ^ privateState % P.modulus

/-- Modelled from the spec: KeyAgreement `computeSharedSecret` (section 4.1): fails with
`InvalidPeerKey` if the remote public value is zero or not less than the modulus. -/
def computeSharedSecret (P : Primitives) (privateState remotePublicKey : Nat) :
    Except Error Nat :=
  if remotePublicKey = 0 ∨ P.modulus ≤ remotePublicKey then
    .error Error.InvalidPeerKey
  else
    .ok (remotePublicKey ^ privateState % P.modulus)

/-- Modelled from the spec: the data of a SecureChannel (section 3); it stands for the struct
`tr_crypto` of crypto.h (`dh`, `myPublicKey`, `mySecret`, `torrentHash`, `isIncoming`,
`enc_key`, `dec_key`). -/
structure SecureChannel where
  role : Role
  privateState : Nat
  publicKey : Nat
  sharedSecret : Option Nat
  contentHash : Option (List Nat)
  sendCipher : Option CipherState
  receiveCipher : Option CipherState
deriving DecidableEq

/-- Modelled from the spec: `create(role)` (section 4.3, `tr_cryptoConstruct`); the fresh
random private value is an argument. -/
def create (P : Primitives) (role : Role) (privateState : Nat) : SecureChannel :=
  ⟨role, privateState, public_of P privateState, none, none, none, none⟩

/-- Modelled from the spec: `publicKeyForHandshake()` (section 4.3,
`tr_cryptoGetMyPublicKey`). -/
def publicKeyForHandshake (c : SecureChannel) : Nat :=
  c.publicKey

/-- Modelled from the spec: `computeSecret(remotePublicKey)` (section 4.3,
`tr_cryptoComputeSecret`): `AlreadyComputed` when called twice, `InvalidPeerKey` propagated
from the key agreement. -/
def computeSecret (P : Primitives) (c : SecureChannel) (remotePublicKey : Nat) :
    Except Error SecureChannel :=
  match c.sharedSecret with
  | some _ => .error Error.AlreadyComputed
  | none =>
    match computeSharedSecret P c.privateState remotePublicKey with
    | .error e => .error e
    | .ok secret => .ok { c with sharedSecret := some secret }

/-- Modelled from the spec: `bindContentHash(hash)` (section 4.3, `tr_cryptoSetTorrentHash`):
allowed only once the secret is computed; a different hash than the bound one is
`HashMismatch`, the same hash is a no-op. -/
def bindContentHash (c : SecureChannel) (hash : List Nat) : Except Error SecureChannel :=
  match c.sharedSecret with
  | none => .error Error.NotReady
  | some _ =>
    match c.contentHash with
    | none => .ok { c with contentHash := some hash }
    | some bound => if bound = hash then .ok c else .error Error.HashMismatch

/-- Modelled from the spec: the direction-specific salt of section 4.3: "A" for the bytes that
flow from the initiator to the responder, "B" for the other direction. -/
def salt (sender : Role) : List Nat :=
  match sender with
  | Role.Initiator => [65]
  | Role.Responder => [66]

/-- Modelled from the spec: the other role. -/
def Role.other : Role → Role
  | Role.Initiator => Role.Responder
  | Role.Responder => Role.Initiator

/-- Modelled from the spec: the shared secret as `KEY_LEN` bytes, most significant first. -/
def secret_bytes (secret : Nat) : List Nat :=
  (List.range KEY_LEN).reverse.map (fun i => secret / 256 ^ i % 256)

/-- Modelled from the spec: the key of one direction (section 4.3): the hash of the salt of
the direction, the shared secret and the content hash. -/
def derive_key (P : Primitives) (sender : Role) (secret : Nat) (contentHash : List Nat) :
    List Nat :=
  P.hash (salt sender ++ secret_bytes secret ++ contentHash)

/-- Modelled from the spec: `finalizeCiphers()` (section 4.3, `tr_cryptoEncryptInit` and
`tr_cryptoDecryptInit`): requires the bound state; the send cipher uses the key of the
direction that starts at the own role, the receive cipher that of the other direction. -/
def finalizeCiphers (P : Primitives) (c : SecureChannel) : Except Error SecureChannel :=
  match c.sharedSecret, c.contentHash with
  | some secret, some hash =>
    .ok { c with
      sendCipher := some (cipher_init (derive_key P c.role secret hash)),
      receiveCipher := some (cipher_init (derive_key P c.role.other secret hash)) }
  | _, _ => .error Error.NotReady

/-- Modelled from the spec: `encryptOutgoing(bytes)` (section 4.3, `tr_cryptoEncrypt`):
`NotReady` before the ciphers are ready, else the send cipher applied to the bytes. -/
def tr_cryptoEncrypt (P : Primitives) (c : SecureChannel) (buf_in : List Nat) :
    Except Error (List Nat × SecureChannel) :=
  match c.sendCipher, c.receiveCipher with
  | some st, some _ =>
    let r := cipher_apply P st buf_in
    .ok (r.1, { c with sendCipher := some r.2 })
  | _, _ => .error Error.NotReady

/-- Modelled from the spec: `decryptIncoming(bytes)` (section 4.3, `tr_cryptoDecrypt`):
`NotReady` before the ciphers are ready, else the receive cipher applied to the bytes. -/
def tr_cryptoDecrypt (P : Primitives) (c : SecureChannel) (buf_in : List Nat) :
    Except Error (List Nat × SecureChannel) :=
  match c.sendCipher, c.receiveCipher with
  | some _, some st =>
    let r := cipher_apply P st buf_in
    .ok (r.1, { c with receiveCipher := some r.2 })
  | _, _ => .error Error.NotReady

/-- Modelled from the spec: the handshake of one channel in the order of the state machine of
section 4.3: create, compute the secret, bind the content hash, finalize the ciphers. -/
def handshake (P : Primitives) (role : Role) (privateState remotePublicKey : Nat)
    (hash : List Nat) : Except Error SecureChannel :=
  match computeSecret P (create P role privateState) remotePublicKey with
  | .error e => .error e
  | .ok c1 =>
    match bindContentHash c1 hash with
    | .error e => .error e
    | .ok c2 => finalizeCiphers P c2

/-- Modelled from the spec: a sender's use of the channel (section 4.3), one call of
`tr_cryptoEncrypt` per buffer, in the order the bytes are transmitted. -/
def encrypt_all (P : Primitives) : SecureChannel → List (List Nat) →
    Except Error (List (List Nat) × SecureChannel)
  | c, [] => .ok ([], c)
  | c, b :: bs =>
    match tr_cryptoEncrypt P c b with
    | .error e => .error e
    | .ok (out, c1) =>
      match encrypt_all P c1 bs with
      | .error e => .error e
      | .ok (outs, c2) => .ok (out :: outs, c2)

/-- Modelled from the spec: a receiver's use of the channel (section 4.3), one call of
`tr_cryptoDecrypt` per buffer, in the order the bytes are received. -/
def decrypt_all (P : Primitives) : SecureChannel → List (List Nat) →
    Except Error (List (List Nat) × SecureChannel)
  | c, [] => .ok ([], c)
  | c, b :: bs =>
    match tr_cryptoDecrypt P c b with
    | .error e => .error e
    | .ok (out, c1) =>
      match decrypt_all P c1 bs with
      | .error e => .error e
      | .ok (outs, c2) => .ok (out :: outs, c2)

/-- Modelled from the spec: the scenario of section 8: two channels in complementary roles
shake hands with each other's public key and the same content hash; the sender encrypts the
buffers, the receiver decrypts the results in order. -/
def exchange (P : Primitives) (sender : Role) (privSender privReceiver : Nat)
    (hash : List Nat) (bufs : List (List Nat)) : Except Error (List (List Nat)) :=
  match handshake P sender privSender (public_of P privReceiver) hash with
  | .error e => .error e
  | .ok s =>
    match handshake P sender.other privReceiver (public_of P privSender) hash with
    | .error e => .error e
    | .ok r =>
      match encrypt_all P s bufs with
      | .error e => .error e
      | .ok (cts, _) =>
        match decrypt_all P r cts with
        | .error e => .error e
        | .ok (pts, _) => .ok pts

/-- A small instance of the primitives used to evaluate the model: the group of residues
modulo 23 with generator 5, the identity as hash, and a keystream that mixes key and index. -/
def toy : Primitives :=
  ⟨23, 5, fun bytes => bytes, fun key i => (key.sum + 7 * i) % 256⟩

/-- A public value that `computeSharedSecret` accepts. -/
def valid_public (P : Primitives) (publicKey : Nat) : Prop :=
  publicKey ≠ 0 ∧ publicKey < P.modulus

instance (P : Primitives) (k : Nat) : Decidable (valid_public P k) := by
  unfold valid_public; infer_instance

end Crypto

/-! # Log message queue (libtransmission/log.cc)

The queue is a singly linked list of heap-allocated messages with a head pointer `myQueue`,
a pointer `myQueueTail` to the link that the next message is stored through, and a counter
`myQueueLength`.  The heap is embedded as a map from addresses to messages; `tr_new0` hands
out the addresses 0, 1, 2, ... in turn.  The calls are serialised by the message lock, so
each one is a step on the state.
-/

namespace Log

/-- One queued log message (`tr_log_message` of log.h), `next` being the link of the queue;
strings are lists of bytes, the `file` pointer is the natural number of its address. -/
structure tr_log_message where
  level : Nat
  line : Int
  when : Int
  name : Option (List Nat)
  message : List Nat
  file : Nat
  next : Option Nat
deriving DecidableEq

/-- The values of `tr_log_message** myQueueTail`: the address of the global `myQueue`, or the
address of the `next` field of an allocated message. -/
inductive TailRef where
  | queue_head
  | next_of (msg : Nat)
deriving DecidableEq

/-- The memory that holds the allocated messages: address to message, `none` when free. -/
abbrev Heap := Nat → Option tr_log_message

/-- The file-scope variables of log.cc and the heap; `brk` is the next address `tr_new0`
hands out. -/
structure LogState where
  heap : Heap
  brk : Nat
  myQueueEnabled : Bool
  myQueue : Option Nat
  myQueueTail : TailRef
  myQueueLength : Int

/-- What `tr_logAddMessage` works with once the text is formatted: its arguments, the bytes
that `evutil_vsnprintf` left in `buf` before the terminating NUL, its return value `buf_len`,
and the value of `tr_time()`. -/
structure log_call where
  file : Nat
  line : Int
  level : Nat
  name : Option (List Nat)
  buf : List Nat
  buf_len : Int
  now : Int
deriving DecidableEq

/-- Largest value of an `int`. -/
def INT_MAX : Int := 2147483647

/-- The static initialisers of log.cc: queueing disabled, empty queue, the tail pointing at
`myQueue`, length 0. -/
def initial : LogState :=
  ⟨fun _ => none, 0, false, none, TailRef.queue_head, 0⟩

/-- Function `tr_logSetQueueEnabled`. -/
def tr_logSetQueueEnabled (s : LogState) (isEnabled : Bool) : LogState :=
  { s with myQueueEnabled := isEnabled }

/-- Function `tr_logGetQueueEnabled`. -/
def tr_logGetQueueEnabled (s : LogState) : Bool :=
  s.myQueueEnabled

/-- Writing one cell of the heap. -/
def heap_set (heap : Heap) (a : Nat) (v : Option tr_log_message) : Heap :=
  fun x => if x = a then v else heap x

/-- Function `tr_logGetQueue`: hands the list over and resets the three queue variables. -/
def tr_logGetQueue (s : LogState) : Option Nat × LogState :=
  (s.myQueue, { s with myQueue := none, myQueueTail := TailRef.queue_head, myQueueLength := 0 })

/-- Function `tr_logFreeQueue`: frees the messages of a list one after the other.  The loop
is bounded by `fuel`; `none` stands for a loop that needs more steps or touches a freed
message. -/
def tr_logFreeQueue : Nat → Heap → Option Nat → Option Heap
  | _, heap, none => some heap
  | 0, _, some _ => none
  | fuel + 1, heap, some list =>
    match heap list with
    | none => none
    | some msg => tr_logFreeQueue fuel (heap_set heap list none) msg.next

/-- The assignment `*myQueueTail = newmsg`; `none` when the tail points into a freed
message. -/
def store_tail (s : LogState) (newmsg : Option Nat) : Option LogState :=
  match s.myQueueTail with
  | TailRef.queue_head => some { s with myQueue := newmsg }
  | TailRef.next_of a =>
    match s.heap a with
    | none => none
    | some msg => some { s with heap := heap_set s.heap a (some { msg with next := newmsg }) }

/-- The message that the queueing branch of `tr_logAddMessage` builds from its arguments. -/
def node_of (c : log_call) : tr_log_message :=
  { level := c.level, line := c.line, when := c.now, name := c.name,
    message := c.buf.take c.buf_len.toNat, file := c.file, next := none }

/-- The eviction block of `tr_logAddMessage`, entered when the length exceeds the limit:
unlink the oldest message, free it, decrement, assert.  `none` stands for a null or dangling
dereference and for a failed `TR_ASSERT`. -/
def evict_oldest (TR_LOG_MAX_QUEUE_LENGTH : Nat) (s : LogState) : Option LogState :=
  match s.myQueue with
  | none => none
  | some old =>
    match s.heap old with
    | none => none
    | some msg =>
      let heap1 := heap_set s.heap old (some { msg with next := none })
      match tr_logFreeQueue s.brk heap1 (some old) with
      | none => none
      | some heap2 =>
        let s1 : LogState :=
          { s with myQueue := msg.next, heap := heap2, myQueueLength := s.myQueueLength - 1 }
        if s1.myQueueLength = TR_LOG_MAX_QUEUE_LENGTH then some s1 else none

/-- Function `tr_logAddMessage`, as far as the queue is concerned.  The limit
`TR_LOG_MAX_QUEUE_LENGTH` of log.h is a parameter.  `none` stands for undefined behaviour
(overflow of the `int` counter, a null or dangling dereference) and for a failed
`TR_ASSERT`. -/
def tr_logAddMessage (TR_LOG_MAX_QUEUE_LENGTH : Nat) (s : LogState) (c : log_call) :
    Option LogState :=
  if c.buf_len < 0 then
    some s
  else if c.buf = [] then
    some s
  else if tr_logGetQueueEnabled s then
    let newmsg := s.brk
    let s1 : LogState := { s with heap := heap_set s.heap newmsg (some (node_of c)), brk := s.brk + 1 }
    match store_tail s1 (some newmsg) with
    | none => none
    | some s2 =>
      if s2.myQueueLength + 1 > INT_MAX then
        none
      else
        let s3 : LogState :=
          { s2 with myQueueTail := TailRef.next_of newmsg, myQueueLength := s2.myQueueLength + 1 }
        if s3.myQueueLength > TR_LOG_MAX_QUEUE_LENGTH then
          evict_oldest TR_LOG_MAX_QUEUE_LENGTH s3
        else
          some s3
  else
    some s

/-- The messages linked from `list`, following `next` for at most `fuel` steps. -/
def list_from : Nat → Heap → Option Nat → List tr_log_message
  | 0, _, _ => []
  | _ + 1, _, none => []
  | fuel + 1, heap, some a =>
    match heap a with
    | none => []
    | some msg => msg :: list_from fuel heap msg.next

/-- The messages linked in the queue. -/
def queued (s : LogState) : List tr_log_message :=
  list_from s.brk s.heap s.myQueue

/-- A message without its link. -/
def payload (msg : tr_log_message) : tr_log_message :=
  { msg with next := none }

/-- One call of the queue interface. -/
inductive Call where
  | add (c : log_call)
  | get

/-- The state after one call. -/
def step (TR_LOG_MAX_QUEUE_LENGTH : Nat) (s : LogState) : Call → Option LogState
  | Call.add c => tr_logAddMessage TR_LOG_MAX_QUEUE_LENGTH s c
  | Call.get => some (tr_logGetQueue s).2

/-- The state after a sequence of calls. -/
def run (TR_LOG_MAX_QUEUE_LENGTH : Nat) : LogState → List Call → Option LogState
  | s, [] => some s
  | s, call :: calls =>
    match step TR_LOG_MAX_QUEUE_LENGTH s call with
    | none => none
    | some s1 => run TR_LOG_MAX_QUEUE_LENGTH s1 calls

/-- The empty queue with queueing enabled. -/
def start : LogState :=
  tr_logSetQueueEnabled initial true

/-- A call of `tr_logAddMessage` whose text reaches the queue: formatting succeeded and the
text is not empty. -/
def accepted (c : log_call) : Bool :=
  decide (0 ≤ c.buf_len) && !c.buf.isEmpty

/-- A message with the text `text`, used to evaluate the model. -/
def sample (text : Nat) : log_call :=
  ⟨0, 1, 2, none, [text], 1, 1000⟩

/-- The address of the first message of a block of messages stored from `a` on. -/
def head_ptr (a : Nat) : List tr_log_message → Option Nat
  | [] => none
  | _ :: _ => some a

/-- The value of `myQueueTail` for a queue whose last message lies at address `last`. -/
def tail_ref (last : Nat) : List tr_log_message → TailRef
  | [] => TailRef.queue_head
  | _ :: _ => TailRef.next_of last

/-- The messages `Q` lie at the consecutive addresses from `a` on, each linked to the next,
the last one linked to nothing. -/
def Seg (heap : Heap) : Nat → List tr_log_message → Prop
  | _, [] => True
  | a, q :: Q => heap a = some { q with next := head_ptr (a + 1) Q } ∧ Seg heap (a + 1) Q

/-- The state represents the queue `Q`: its messages are the last allocated ones, `myQueue`
points at the first, `myQueueTail` at the link of the last, `myQueueLength` is their number. -/
def Rep (s : LogState) (Q : List tr_log_message) : Prop :=
  ∃ base, base + Q.length = s.brk ∧ Seg s.heap base Q ∧
    s.myQueue = head_ptr base Q ∧
    s.myQueueTail = tail_ref (s.brk - 1) Q ∧
    s.myQueueLength = Q.length ∧ s.myQueueEnabled = true

/-- The queue as a list: a new message goes to the end, and when the length exceeds the limit
the first message is dropped. -/
def push (TR_LOG_MAX_QUEUE_LENGTH : Nat) (Q : List tr_log_message) (x : tr_log_message) :
    List tr_log_message :=
  if Q.length + 1 > TR_LOG_MAX_QUEUE_LENGTH then (Q ++ [x]).tail else Q ++ [x]

/-- The queue as a list after one call. -/
def abs_step (TR_LOG_MAX_QUEUE_LENGTH : Nat) (Q : List tr_log_message) :
    Call → List tr_log_message
  | Call.add c => if accepted c then push TR_LOG_MAX_QUEUE_LENGTH Q (node_of c) else Q
  | Call.get => []

/-- The queue as a list after a sequence of calls. -/
def abs_run (TR_LOG_MAX_QUEUE_LENGTH : Nat) (Q : List tr_log_message) (calls : List Call) :
    List tr_log_message :=
  calls.foldl (abs_step TR_LOG_MAX_QUEUE_LENGTH) Q

/-- The most recent `TR_LOG_MAX_QUEUE_LENGTH` (or all, if fewer) of the messages that the calls
`cs` put into the queue, oldest first. -/
def recent (TR_LOG_MAX_QUEUE_LENGTH : Nat) (cs : List log_call) : List tr_log_message :=
  ((cs.filter accepted).map node_of).drop ((cs.filter accepted).length - TR_LOG_MAX_QUEUE_LENGTH)

end Log

namespace ActiveRequests

/-! ## Facts about the comparator and about `std::set<peer_at>` -/

theorem peer_at_lt_iff (a b : peer_at) : a.lt b = true ↔ a.peer < b.peer := by
  unfold peer_at.lt peer_at.compare
  by_cases h : a.peer = b.peer
  · simp [h]
  · by_cases h2 : a.peer < b.peer <;> simp [h, h2]

theorem set_wf_cons {y : peer_at} {ys : PeerSet} :
    set_wf (y :: ys) ↔ (∀ x ∈ ys, y.peer < x.peer) ∧ set_wf ys := by
  simp [set_wf]

theorem set_wf_nil : set_wf [] := by
  simp [set_wf]

theorem set_wf_unique {s : PeerSet} (hs : set_wf s) {x y : peer_at} (hx : x ∈ s) (hy : y ∈ s)
    (h : x.peer = y.peer) : x = y := by
  induction s with
  | nil => simp at hx
  | cons z zs ih =>
    obtain ⟨hz, hzs⟩ := set_wf_cons.mp hs
    rcases List.mem_cons.mp hx with hx | hx <;> rcases List.mem_cons.mp hy with hy | hy
    · rw [hx, hy]
    · have := hz y hy
      rw [hx] at h
      omega
    · have := hz x hx
      rw [hy] at h
      omega
    · exact ih hzs hx hy

theorem set_count_ne_zero_iff {s : PeerSet} (hs : set_wf s) (key : peer_at) :
    set_count s key ≠ 0 ↔ ∃ x ∈ s, x.peer = key.peer := by
  induction s with
  | nil => simp [set_count]
  | cons y ys ih =>
    obtain ⟨hy, hys⟩ := set_wf_cons.mp hs
    simp only [set_count, peer_at_lt_iff]
    by_cases h1 : y.peer < key.peer
    · simp only [h1, if_true, ih hys, List.mem_cons, exists_eq_or_imp]
      constructor
      · intro h; exact Or.inr h
      · rintro (h | h)
        · omega
        · exact h
    · by_cases h2 : key.peer < y.peer
      · simp only [h1, h2, if_true, if_false, ne_eq, not_true_eq_false, false_iff]
        rintro ⟨x, hx, hxe⟩
        rcases List.mem_cons.mp hx with rfl | hx
        · omega
        · have := hy x hx
          omega
      · simp only [h1, h2, if_false]
        constructor
        · intro _
          exact ⟨y, List.mem_cons_self _ _, by omega⟩
        · intro _; decide

theorem set_count_eq_zero_iff {s : PeerSet} (hs : set_wf s) (key : peer_at) :
    set_count s key = 0 ↔ ∀ x ∈ s, x.peer ≠ key.peer := by
  have h := set_count_ne_zero_iff hs key
  constructor
  · intro h0 x hx hxe
    exact (h.mpr ⟨x, hx, hxe⟩) h0
  · intro hall
    by_contra hne
    obtain ⟨x, hx, hxe⟩ := h.mp hne
    exact hall x hx hxe

theorem set_emplace_wf {s : PeerSet} (hs : set_wf s) (a : peer_at) :
    set_wf (set_emplace s a).1 ∧
      ∀ x, x ∈ (set_emplace s a).1 → x ∈ s ∨ x = a := by
  induction s with
  | nil => simp [set_emplace, set_wf]
  | cons y ys ih =>
    obtain ⟨hy, hys⟩ := set_wf_cons.mp hs
    obtain ⟨ih1, ih2⟩ := ih hys
    simp only [set_emplace, peer_at_lt_iff]
    by_cases h1 : y.peer < a.peer
    · simp only [h1, if_true]
      refine ⟨set_wf_cons.mpr ⟨?_, ih1⟩, ?_⟩
      · intro x hx
        rcases ih2 x hx with h | h
        · exact hy x h
        · rw [h]; exact h1
      · intro x hx
        rcases List.mem_cons.mp hx with h | h
        · exact Or.inl (h ▸ List.mem_cons_self _ _)
        · rcases ih2 x h with h | h
          · exact Or.inl (List.mem_cons_of_mem _ h)
          · exact Or.inr h
    · by_cases h2 : a.peer < y.peer
      · simp only [h1, h2, if_true, if_false]
        refine ⟨set_wf_cons.mpr ⟨?_, hs⟩, ?_⟩
        · intro x hx
          rcases List.mem_cons.mp hx with h | h
          · rw [h]; exact h2
          · exact lt_trans h2 (hy x h)
        · intro x hx
          rcases List.mem_cons.mp hx with h | h
          · exact Or.inr h
          · exact Or.inl h
      · simp only [h1, h2, if_false]
        exact ⟨hs, fun x hx => Or.inl hx⟩

theorem set_emplace_of_absent {s : PeerSet} (hs : set_wf s) (a : peer_at)
    (h : ∀ x ∈ s, x.peer ≠ a.peer) :
    (set_emplace s a).2 = true ∧ ∀ x, x ∈ (set_emplace s a).1 ↔ x ∈ s ∨ x = a := by
  induction s with
  | nil => simp [set_emplace]
  | cons y ys ih =>
    obtain ⟨hy, hys⟩ := set_wf_cons.mp hs
    obtain ⟨ih1, ih2⟩ := ih hys (fun x hx => h x (List.mem_cons_of_mem _ hx))
    have hya : y.peer ≠ a.peer := h y (List.mem_cons_self _ _)
    simp only [set_emplace, peer_at_lt_iff]
    by_cases h1 : y.peer < a.peer
    · simp only [h1, if_true, ih1, true_and, List.mem_cons, ih2]
      intro x; tauto
    · have h2 : a.peer < y.peer := by omega
      simp only [h1, h2, if_true, if_false, true_and, List.mem_cons]
      intro x; tauto

theorem set_emplace_of_present {s : PeerSet} (hs : set_wf s) (a : peer_at)
    (h : ∃ x ∈ s, x.peer = a.peer) :
    set_emplace s a = (s, false) := by
  induction s with
  | nil => simp at h
  | cons y ys ih =>
    obtain ⟨hy, hys⟩ := set_wf_cons.mp hs
    simp only [set_emplace, peer_at_lt_iff]
    by_cases h1 : y.peer < a.peer
    · have hex : ∃ x ∈ ys, x.peer = a.peer := by
        obtain ⟨x, hx, hxe⟩ := h
        rcases List.mem_cons.mp hx with rfl | hx
        · omega
        · exact ⟨x, hx, hxe⟩
      simp [h1, ih hys hex]
    · by_cases h2 : a.peer < y.peer
      · exfalso
        obtain ⟨x, hx, hxe⟩ := h
        rcases List.mem_cons.mp hx with rfl | hx
        · omega
        · have := hy x hx
          omega
      · simp [h1, h2]

theorem set_erase_wf {s : PeerSet} (hs : set_wf s) (key : peer_at) :
    set_wf (set_erase s key).1 ∧
      ∀ x, x ∈ (set_erase s key).1 ↔ x ∈ s ∧ x.peer ≠ key.peer := by
  induction s with
  | nil => simp [set_erase, set_wf]
  | cons y ys ih =>
    obtain ⟨hy, hys⟩ := set_wf_cons.mp hs
    obtain ⟨ih1, ih2⟩ := ih hys
    simp only [set_erase, peer_at_lt_iff]
    by_cases h1 : y.peer < key.peer
    · simp only [h1, if_true]
      refine ⟨set_wf_cons.mpr ⟨fun x hx => hy x ((ih2 x).mp hx).1, ih1⟩, ?_⟩
      intro x
      simp only [List.mem_cons, ih2]
      constructor
      · rintro (h | h)
        · subst h; exact ⟨Or.inl rfl, by omega⟩
        · exact ⟨Or.inr h.1, h.2⟩
      · rintro ⟨h | h, hne⟩
        · exact Or.inl h
        · exact Or.inr ⟨h, hne⟩
    · by_cases h2 : key.peer < y.peer
      · simp only [h1, h2, if_true, if_false]
        refine ⟨hs, fun x => ⟨fun hx => ⟨hx, ?_⟩, fun hx => hx.1⟩⟩
        rcases List.mem_cons.mp hx with rfl | hx
        · omega
        · have := hy x hx
          omega
      · simp only [h1, h2, if_false]
        refine ⟨hys, fun x => ⟨fun hx => ⟨List.mem_cons_of_mem _ hx, ?_⟩, ?_⟩⟩
        · have := hy x hx
          omega
        · rintro ⟨hx, hne⟩
          rcases List.mem_cons.mp hx with rfl | hx
          · omega
          · exact hx

theorem set_erase_snd (s : PeerSet) (key : peer_at) :
    (set_erase s key).2 = set_count s key ∧
      (set_erase s key).1.length + (set_erase s key).2 = s.length := by
  induction s with
  | nil => simp [set_erase, set_count]
  | cons y ys ih =>
    simp only [set_erase, set_count]
    by_cases h1 : y.lt key = true
    · simp only [h1, if_true, List.length_cons]
      exact ⟨ih.1, by omega⟩
    · by_cases h2 : key.lt y = true
      · simp [h1, h2]
      · simp [h1, h2]

theorem set_erase_of_absent (s : PeerSet) (key : peer_at) (h : set_count s key = 0) :
    set_erase s key = (s, 0) := by
  induction s with
  | nil => simp [set_erase]
  | cons y ys ih =>
    simp only [set_erase, set_count] at h ⊢
    by_cases h1 : y.lt key = true
    · simp only [h1, if_true] at h ⊢
      rw [ih h]
    · by_cases h2 : key.lt y = true
      · simp [h1, h2]
      · simp [h1, h2] at h

theorem set_count_le_one (s : PeerSet) (key : peer_at) : set_count s key ≤ 1 := by
  induction s with
  | nil => simp [set_count]
  | cons y ys ih =>
    simp only [set_count]
    split_ifs <;> omega

/-! ## Facts about the map -/

theorem map_find_subscript (m : Blocks) (b b' : Nat) :
    map_find (map_subscript m b) b' =
      if b' = b then some ((map_find m b).getD []) else map_find m b' := by
  induction m with
  | nil =>
    simp only [map_subscript, map_find]
    by_cases h : b' = b
    · simp [h]
    · have : b < b' ∨ b' < b := by omega
      rcases this with h1 | h1
      · simp [h, h1]
      · have h2 : ¬ b < b' := by omega
        simp [h, h1, h2]
  | cons e rest ih =>
    obtain ⟨k, s⟩ := e
    simp only [map_subscript, map_find]
    by_cases h1 : k < b
    · simp only [h1, if_true, map_find, ih]
      by_cases h2 : k < b'
      · simp [h2]
      · have hne : b' ≠ b := by omega
        simp [h2, hne]
    · by_cases h2 : b < k
      · simp only [h1, h2, if_true, if_false, map_find, Option.getD_none]
        by_cases h3 : b' = b
        · subst h3; simp
        · by_cases h4 : b < b'
          · simp [h3, h4]
          · have h5 : b' < b := by omega
            have h6 : ¬ k < b' := by omega
            have h7 : b' < k := by omega
            simp [h3, h4, h5, h6, h7]
      · have hkb : k = b := by omega
        subst hkb
        simp only [lt_self_iff_false, if_false, map_find, Option.getD_some]
        by_cases h3 : b' = k
        · subst h3; simp
        · simp [h3]

theorem map_find_store (m : Blocks) (b b' : Nat) (v : PeerSet) :
    map_find (map_store m b v) b' =
      if b' = b then (map_find m b).map (fun _ => v) else map_find m b' := by
  induction m with
  | nil => simp [map_store, map_find]
  | cons e rest ih =>
    obtain ⟨k, s⟩ := e
    simp only [map_store, map_find]
    by_cases h1 : k < b
    · simp only [h1, if_true, map_find, ih]
      by_cases h2 : k < b'
      · simp [h2]
      · have hne : b' ≠ b := by omega
        simp [h2, hne]
    · by_cases h2 : b < k
      · simp only [h1, h2, if_true, if_false, map_find, Option.map_none']
        by_cases h3 : b' = b
        · subst h3
          have h4 : ¬ k < b' := by omega
          simp [h4, h2]
        · simp [h3]
      · have hkb : k = b := by omega
        subst hkb
        simp only [lt_self_iff_false, if_false, map_find, Option.map_some']
        by_cases h3 : b' = k
        · subst h3; simp
        · have h4 : k < b' ∨ b' < k := by omega
          rcases h4 with h4 | h4
          · simp [h3, h4]
          · have h5 : ¬ k < b' := by omega
            simp [h3, h4, h5]

theorem keys_sorted_cons {e : Nat × PeerSet} {rest : Blocks} :
    keys_sorted (e :: rest) ↔ (∀ x ∈ rest, e.1 < x.1) ∧ keys_sorted rest := by
  simp [keys_sorted]

theorem map_find_of_lt_all (m : Blocks) (b : Nat) (h : ∀ x ∈ m, b < x.1) :
    map_find m b = none := by
  cases m with
  | nil => simp [map_find]
  | cons e rest =>
    obtain ⟨k, s⟩ := e
    have hk : b < k := h (k, s) (List.mem_cons_self _ _)
    have h1 : ¬ k < b := by omega
    simp [map_find, h1, hk]

theorem map_find_erase {m : Blocks} (hm : keys_sorted m) (b b' : Nat) :
    map_find (map_erase m b) b' = if b' = b then none else map_find m b' := by
  induction m with
  | nil => simp [map_erase, map_find]
  | cons e rest ih =>
    obtain ⟨k, s⟩ := e
    obtain ⟨hk, hrest⟩ := keys_sorted_cons.mp hm
    simp only [map_erase, map_find]
    by_cases h1 : k < b
    · simp only [h1, if_true, map_find, ih hrest]
      by_cases h2 : k < b'
      · simp [h2]
      · have hne : b' ≠ b := by omega
        simp [h2, hne]
    · by_cases h2 : b < k
      · simp only [h1, h2, if_true, if_false, map_find]
        by_cases h3 : b' = b
        · subst h3
          simp [h1, h2]
        · simp [h3]
      · have hkb : k = b := by omega
        subst hkb
        simp only [lt_self_iff_false, if_false]
        by_cases h3 : b' = k
        · subst h3
          simp only [if_true]
          exact map_find_of_lt_all rest b' hk
        · simp only [h3, if_false]
          by_cases h4 : k < b'
          · simp [h4]
          · have h5 : b' < k := by omega
            simp only [h4, h5, if_true, if_false]
            exact map_find_of_lt_all rest b' (fun x hx => lt_trans h5 (hk x hx))

theorem map_find_eq_some_iff {m : Blocks} (hm : keys_sorted m) (b : Nat) (s : PeerSet) :
    map_find m b = some s ↔ (b, s) ∈ m := by
  induction m with
  | nil => simp [map_find]
  | cons e rest ih =>
    obtain ⟨k, s'⟩ := e
    obtain ⟨hk, hrest⟩ := keys_sorted_cons.mp hm
    simp only [map_find, List.mem_cons, Prod.mk.injEq]
    by_cases h1 : k < b
    · simp only [h1, if_true, ih hrest]
      constructor
      · intro h; exact Or.inr h
      · rintro (⟨h, _⟩ | h)
        · omega
        · exact h
    · by_cases h2 : b < k
      · simp only [h1, h2, if_true, if_false]
        refine ⟨fun h => by simp at h, ?_⟩
        rintro (⟨h, _⟩ | h)
        · omega
        · have := hk _ h
          simp only at this
          omega
      · have hkb : k = b := by omega
        subst hkb
        simp only [lt_self_iff_false, if_false, Option.some.injEq, true_and]
        constructor
        · intro h; exact Or.inl h.symm
        · rintro (h | h)
          · exact h.symm
          · have := hk _ h
            simp only at this
            omega

theorem map_store_self (m : Blocks) (b : Nat) (s : PeerSet) (h : map_find m b = some s) :
    map_store m b s = m := by
  induction m with
  | nil => simp [map_store]
  | cons e rest ih =>
    obtain ⟨k, s'⟩ := e
    simp only [map_store, map_find] at h ⊢
    by_cases h1 : k < b
    · simp only [h1, if_true] at h ⊢
      rw [ih h]
    · by_cases h2 : b < k
      · simp [h1, h2]
      · simp only [h1, h2, if_false, Option.some.injEq] at h ⊢
        rw [h]

theorem map_subscript_of_found (m : Blocks) (b : Nat) (s : PeerSet) (h : map_find m b = some s) :
    map_subscript m b = m := by
  induction m with
  | nil => simp [map_find] at h
  | cons e rest ih =>
    obtain ⟨k, s'⟩ := e
    simp only [map_subscript, map_find] at h ⊢
    by_cases h1 : k < b
    · simp only [h1, if_true] at h ⊢
      rw [ih h]
    · by_cases h2 : b < k
      · simp [h1, h2] at h
      · simp [h1, h2]

theorem map_subscript_mem (m : Blocks) (b : Nat) (x : Nat × PeerSet)
    (hx : x ∈ map_subscript m b) : x ∈ m ∨ x = (b, []) := by
  induction m with
  | nil =>
    simp only [map_subscript, List.mem_singleton] at hx
    exact Or.inr hx
  | cons e rest ih =>
    obtain ⟨k, s'⟩ := e
    simp only [map_subscript] at hx
    by_cases h1 : k < b
    · simp only [h1, if_true, List.mem_cons] at hx
      rcases hx with h | h
      · exact Or.inl (h ▸ List.mem_cons_self _ _)
      · rcases ih h with h | h
        · exact Or.inl (List.mem_cons_of_mem _ h)
        · exact Or.inr h
    · by_cases h2 : b < k
      · simp only [h1, h2, if_true, if_false, List.mem_cons] at hx
        rcases hx with h | h | h
        · exact Or.inr h
        · exact Or.inl (h ▸ List.mem_cons_self _ _)
        · exact Or.inl (List.mem_cons_of_mem _ h)
      · simp only [h1, h2, if_false] at hx
        exact Or.inl hx

theorem map_store_mem (m : Blocks) (b : Nat) (v : PeerSet) (x : Nat × PeerSet)
    (hx : x ∈ map_store m b v) : x ∈ m ∨ x = (b, v) := by
  induction m with
  | nil => simp [map_store] at hx
  | cons e rest ih =>
    obtain ⟨k, s'⟩ := e
    simp only [map_store] at hx
    by_cases h1 : k < b
    · simp only [h1, if_true, List.mem_cons] at hx
      rcases hx with h | h
      · exact Or.inl (h ▸ List.mem_cons_self _ _)
      · rcases ih h with h | h
        · exact Or.inl (List.mem_cons_of_mem _ h)
        · exact Or.inr h
    · by_cases h2 : b < k
      · simp only [h1, h2, if_true, if_false] at hx
        exact Or.inl hx
      · have hkb : k = b := by omega
        subst hkb
        simp only [lt_self_iff_false, if_false, List.mem_cons] at hx
        rcases hx with h | h
        · exact Or.inr h
        · exact Or.inl (List.mem_cons_of_mem _ h)

theorem map_erase_mem (m : Blocks) (b : Nat) (x : Nat × PeerSet)
    (hx : x ∈ map_erase m b) : x ∈ m := by
  induction m with
  | nil => simp [map_erase] at hx
  | cons e rest ih =>
    obtain ⟨k, s'⟩ := e
    simp only [map_erase] at hx
    by_cases h1 : k < b
    · simp only [h1, if_true, List.mem_cons] at hx
      rcases hx with h | h
      · exact h ▸ List.mem_cons_self _ _
      · exact List.mem_cons_of_mem _ (ih h)
    · by_cases h2 : b < k
      · simp only [h1, h2, if_true, if_false] at hx
        exact hx
      · simp only [h1, h2, if_false] at hx
        exact List.mem_cons_of_mem _ hx

theorem map_subscript_sorted {m : Blocks} (hm : keys_sorted m) (b : Nat) :
    keys_sorted (map_subscript m b) := by
  induction m with
  | nil => simp [map_subscript, keys_sorted]
  | cons e rest ih =>
    obtain ⟨k, s⟩ := e
    obtain ⟨hk, hrest⟩ := keys_sorted_cons.mp hm
    simp only [map_subscript]
    by_cases h1 : k < b
    · simp only [h1, if_true]
      refine keys_sorted_cons.mpr ⟨?_, ih hrest⟩
      intro x hx
      rcases map_subscript_mem rest b x hx with h | h
      · exact hk x h
      · rw [h]; exact h1
    · by_cases h2 : b < k
      · simp only [h1, h2, if_true, if_false]
        refine keys_sorted_cons.mpr ⟨?_, hm⟩
        intro x hx
        rcases List.mem_cons.mp hx with h | h
        · rw [h]; exact h2
        · exact lt_trans h2 (hk x h)
      · simp only [h1, h2, if_false]
        exact hm

theorem map_store_sorted {m : Blocks} (hm : keys_sorted m) (b : Nat) (v : PeerSet) :
    keys_sorted (map_store m b v) := by
  induction m with
  | nil => simp [map_store, keys_sorted]
  | cons e rest ih =>
    obtain ⟨k, s⟩ := e
    obtain ⟨hk, hrest⟩ := keys_sorted_cons.mp hm
    simp only [map_store]
    by_cases h1 : k < b
    · simp only [h1, if_true]
      refine keys_sorted_cons.mpr ⟨?_, ih hrest⟩
      intro x hx
      rcases map_store_mem rest b v x hx with h | h
      · exact hk x h
      · rw [h]; exact h1
    · by_cases h2 : b < k
      · simp only [h1, h2, if_true, if_false]
        exact hm
      · simp only [h1, h2, if_false]
        exact keys_sorted_cons.mpr ⟨hk, hrest⟩

theorem map_erase_sorted {m : Blocks} (hm : keys_sorted m) (b : Nat) :
    keys_sorted (map_erase m b) := by
  induction m with
  | nil => simp [map_erase, keys_sorted]
  | cons e rest ih =>
    obtain ⟨k, s⟩ := e
    obtain ⟨hk, hrest⟩ := keys_sorted_cons.mp hm
    simp only [map_erase]
    by_cases h1 : k < b
    · simp only [h1, if_true]
      exact keys_sorted_cons.mpr ⟨fun x hx => hk x (map_erase_mem rest b x hx), ih hrest⟩
    · by_cases h2 : b < k
      · simp only [h1, h2, if_true, if_false]
        exact hm
      · simp only [h1, h2, if_false]
        exact hrest

theorem WF_empty : WF empty := by
  simp [WF, empty, keys_sorted]

theorem map_subscript_WF {m : Blocks} (hm : WF m) (b : Nat) : WF (map_subscript m b) := by
  refine ⟨map_subscript_sorted hm.1 b, ?_⟩
  intro e he
  rcases map_subscript_mem m b e he with h | h
  · exact hm.2 e h
  · rw [h]; exact set_wf_nil

theorem map_store_WF {m : Blocks} (hm : WF m) (b : Nat) {v : PeerSet} (hv : set_wf v) :
    WF (map_store m b v) := by
  refine ⟨map_store_sorted hm.1 b v, ?_⟩
  intro e he
  rcases map_store_mem m b v e he with h | h
  · exact hm.2 e h
  · rw [h]; exact hv

theorem map_erase_WF {m : Blocks} (hm : WF m) (b : Nat) : WF (map_erase m b) :=
  ⟨map_erase_sorted hm.1 b, fun e he => hm.2 e (map_erase_mem m b e he)⟩

theorem map_find_wf {m : Blocks} (hm : WF m) {b : Nat} {s : PeerSet}
    (h : map_find m b = some s) : set_wf s :=
  hm.2 (b, s) ((map_find_eq_some_iff hm.1 b s).mp h)

/-! ## The abstract view -/

theorem mem_triples_iff {m : Blocks} (hm : keys_sorted m) (b p : Nat) (t : Int) :
    (b, p, t) ∈ triples m ↔ ∃ s, map_find m b = some s ∧ (⟨p, t⟩ : peer_at) ∈ s := by
  simp only [triples, List.mem_flatMap, List.mem_map, Prod.mk.injEq]
  constructor
  · rintro ⟨e, he, x, hx, h1, h2, h3⟩
    obtain ⟨k, s⟩ := e
    simp only at h1 hx
    subst h1
    refine ⟨s, (map_find_eq_some_iff hm k s).mpr he, ?_⟩
    have : x = ⟨p, t⟩ := by
      cases x
      simp only at h2 h3
      simp [h2, h3]
    rw [← this]; exact hx
  · rintro ⟨s, hs, hx⟩
    exact ⟨(b, s), (map_find_eq_some_iff hm b s).mp hs, ⟨p, t⟩, hx, rfl, rfl, rfl⟩

theorem has_iff_find {m : Blocks} (hm : WF m) (b p : Nat) :
    has m b p = true ↔ ∃ s, map_find m b = some s ∧ ∃ x ∈ s, x.peer = p := by
  unfold has
  cases hf : map_find m b with
  | none => simp
  | some s =>
    have h := set_count_ne_zero_iff (map_find_wf hm hf) ⟨p, 0⟩
    simp only [bne_iff_ne, h, Option.some.injEq, exists_eq_left']

theorem has_iff_triples {m : Blocks} (hm : WF m) (b p : Nat) :
    has m b p = true ↔ ∃ t, (b, p, t) ∈ triples m := by
  rw [has_iff_find hm]
  constructor
  · rintro ⟨s, hs, x, hx, hxp⟩
    refine ⟨x.when, (mem_triples_iff hm.1 b p x.when).mpr ⟨s, hs, ?_⟩⟩
    subst hxp
    exact hx
  · rintro ⟨t, ht⟩
    obtain ⟨s, hs, hx⟩ := (mem_triples_iff hm.1 b p t).mp ht
    exact ⟨s, hs, ⟨p, t⟩, hx, rfl⟩

theorem triples_functional {m : Blocks} (hm : WF m) {b p : Nat} {t t' : Int}
    (h : (b, p, t) ∈ triples m) (h' : (b, p, t') ∈ triples m) : t = t' := by
  obtain ⟨s, hs, hx⟩ := (mem_triples_iff hm.1 b p t).mp h
  obtain ⟨s', hs', hx'⟩ := (mem_triples_iff hm.1 b p t').mp h'
  rw [hs] at hs'
  cases hs'
  have hw : set_wf s := map_find_wf hm hs
  have := set_wf_unique hw hx hx' rfl
  cases this
  rfl

/-! ## Facts about `size` -/

theorem foldl_size_acc (m : Blocks) (a : Nat) :
    m.foldl (fun sum it => sum + it.2.length) a = a + (m.map (fun e => e.2.length)).sum := by
  induction m generalizing a with
  | nil => simp
  | cons e rest ih =>
    simp only [List.foldl_cons, ih, List.map_cons, List.sum_cons]
    omega

theorem size_eq_sum (m : Blocks) : size m = (m.map (fun e => e.2.length)).sum := by
  simp [size, foldl_size_acc]

theorem size_cons (e : Nat × PeerSet) (rest : Blocks) :
    size (e :: rest) = e.2.length + size rest := by
  simp [size_eq_sum]

theorem size_store (m : Blocks) (b : Nat) (s v : PeerSet) (h : map_find m b = some s) :
    size (map_store m b v) + s.length = size m + v.length := by
  induction m with
  | nil => simp [map_find] at h
  | cons e rest ih =>
    obtain ⟨k, s'⟩ := e
    simp only [map_store, map_find] at h ⊢
    by_cases h1 : k < b
    · simp only [h1, if_true] at h ⊢
      have := ih h
      simp only [size_cons]
      omega
    · by_cases h2 : b < k
      · simp [h1, h2] at h
      · simp only [h1, h2, if_false, Option.some.injEq] at h ⊢
        subst h
        simp only [size_cons]
        omega

theorem size_erase (m : Blocks) (b : Nat) (s : PeerSet) (h : map_find m b = some s) :
    size (map_erase m b) + s.length = size m := by
  induction m with
  | nil => simp [map_find] at h
  | cons e rest ih =>
    obtain ⟨k, s'⟩ := e
    simp only [map_erase, map_find] at h ⊢
    by_cases h1 : k < b
    · simp only [h1, if_true] at h ⊢
      have := ih h
      simp only [size_cons]
      omega
    · by_cases h2 : b < k
      · simp [h1, h2] at h
      · simp only [h1, h2, if_false, Option.some.injEq] at h ⊢
        subst h
        simp only [size_cons]
        omega

/-! ## Facts about `add` -/

theorem map_find_add (m : Blocks) (b p : Nat) (t : Int) (b' : Nat) :
    map_find (add m b p t).1 b' =
      if b' = b then some (set_emplace ((map_find m b).getD []) ⟨p, t⟩).1
      else map_find m b' := by
  simp only [add, map_find_store, map_find_subscript]
  by_cases h : b' = b
  · simp [h]
  · simp [h]

theorem getD_find_wf {m : Blocks} (hm : WF m) (b : Nat) :
    set_wf ((map_find m b).getD []) := by
  cases hf : map_find m b with
  | none => exact set_wf_nil
  | some s => exact map_find_wf hm hf

theorem add_WF {m : Blocks} (hm : WF m) (b p : Nat) (t : Int) : WF (add m b p t).1 := by
  simp only [add]
  refine map_store_WF (map_subscript_WF hm b) b (set_emplace_wf ?_ _).1
  simp only [map_find_subscript, if_true, Option.getD_some]
  exact getD_find_wf hm b

theorem add_of_has {m : Blocks} (hm : WF m) (b p : Nat) (t : Int) (h : has m b p = true) :
    add m b p t = (m, false) := by
  obtain ⟨s, hs, x, hx, hxp⟩ := (has_iff_find hm b p).mp h
  have hsub : map_subscript m b = m := map_subscript_of_found m b s hs
  have hem : set_emplace s ⟨p, t⟩ = (s, false) :=
    set_emplace_of_present (map_find_wf hm hs) ⟨p, t⟩ ⟨x, hx, hxp⟩
  simp only [add, hsub, hs, Option.getD_some, hem, map_store_self m b s hs]

theorem has_false_absent {m : Blocks} (hm : WF m) {b p : Nat} (h : has m b p = false) :
    ∀ x ∈ (map_find m b).getD [], x.peer ≠ p := by
  intro x hx hxp
  cases hf : map_find m b with
  | none => simp [hf] at hx
  | some s =>
    simp only [hf, Option.getD_some] at hx
    have : has m b p = true := (has_iff_find hm b p).mpr ⟨s, hf, x, hx, hxp⟩
    simp [h] at this

theorem add_of_not_has {m : Blocks} (hm : WF m) (b p : Nat) (t : Int) (h : has m b p = false) :
    (add m b p t).2 = true ∧
      ∀ x, x ∈ triples (add m b p t).1 ↔ x ∈ triples m ∨ x = (b, p, t) := by
  have habs := has_false_absent hm h
  have hem := set_emplace_of_absent (getD_find_wf hm b) ⟨p, t⟩ habs
  constructor
  · have hfs : map_find (map_subscript m b) b = some ((map_find m b).getD []) := by
      simp [map_find_subscript]
    simp only [add, hfs, Option.getD_some]
    exact hem.1
  · rintro ⟨b', p', t'⟩
    rw [mem_triples_iff (add_WF hm b p t).1, mem_triples_iff hm.1, map_find_add]
    by_cases hb : b' = b
    · subst hb
      simp only [if_true, Option.some.injEq, exists_eq_left', hem.2, Prod.mk.injEq, true_and]
      cases hf : map_find m b' with
      | none =>
        simp only [Option.getD_none, List.not_mem_nil, false_or, peer_at.mk.injEq]
        constructor
        · intro h; exact Or.inr h
        · rintro (⟨s, hs, _⟩ | h)
          · cases hs
          · exact h
      | some s =>
        simp only [Option.getD_some, Option.some.injEq, exists_eq_left', peer_at.mk.injEq]
    · simp only [hb, if_false, Prod.mk.injEq, false_and, or_false]

/-! ## Facts about `remove(block, peer)` -/

theorem remove_snd (m : Blocks) (b p : Nat) : (remove m b p).2 = has m b p := by
  unfold remove has
  cases hf : map_find m b with
  | none => rfl
  | some s =>
    simp only [(set_erase_snd s ⟨p, 0⟩).1]
    split_ifs <;> rfl

theorem remove_of_not_has (m : Blocks) (b p : Nat) (h : has m b p = false) :
    remove m b p = (m, false) := by
  unfold has at h
  unfold remove
  cases hf : map_find m b with
  | none => rfl
  | some s =>
    simp only [hf, bne_eq_false_iff_eq, beq_iff_eq] at h
    have he := set_erase_of_absent s ⟨p, 0⟩ h
    simp [he, map_store_self m b s hf]

theorem remove_WF {m : Blocks} (hm : WF m) (b p : Nat) : WF (remove m b p).1 := by
  unfold remove
  cases hf : map_find m b with
  | none => exact hm
  | some s =>
    have hw := (set_erase_wf (map_find_wf hm hf) ⟨p, 0⟩).1
    simp only
    split_ifs
    · exact map_erase_WF (map_store_WF hm b hw) b
    · exact map_store_WF hm b hw

theorem mem_triples_remove {m : Blocks} (hm : WF m) (b p : Nat) (b' p' : Nat) (t' : Int) :
    (b', p', t') ∈ triples (remove m b p).1 ↔
      (b', p', t') ∈ triples m ∧ ¬ (b' = b ∧ p' = p) := by
  rw [mem_triples_iff (remove_WF hm b p).1, mem_triples_iff hm.1]
  unfold remove
  cases hf : map_find m b with
  | none =>
    simp only
    constructor
    · rintro ⟨s, hs, hx⟩
      refine ⟨⟨s, hs, hx⟩, ?_⟩
      rintro ⟨rfl, _⟩
      simp [hf] at hs
    · rintro ⟨h, _⟩; exact h
  | some s =>
    have hw := set_erase_wf (map_find_wf hm hf) ⟨p, 0⟩
    simp only
    split_ifs with hc
    · rw [map_find_erase (map_store_sorted hm.1 b _), map_find_store]
      by_cases hb : b' = b
      · subst hb
        simp only [if_true, true_and]
        constructor
        · rintro ⟨s', hs', _⟩
          cases hs'
        · rintro ⟨⟨s', hs', hx⟩, hne⟩
          rw [hf] at hs'
          cases hs'
          simp only [Bool.and_eq_true, List.isEmpty_iff] at hc
          have : (⟨p', t'⟩ : peer_at) ∈ (set_erase s ⟨p, 0⟩).1 := (hw.2 _).mpr ⟨hx, hne⟩
          rw [hc.2] at this
          simp at this
      · simp [hb]
    · rw [map_find_store]
      by_cases hb : b' = b
      · subst hb
        simp only [if_true, hf, Option.map_some', Option.some.injEq, exists_eq_left', hw.2,
          true_and, ne_eq]
      · simp [hb]

theorem size_remove (m : Blocks) (b p : Nat) (h : has m b p = true) :
    size (remove m b p).1 + 1 = size m := by
  unfold has at h
  unfold remove
  cases hf : map_find m b with
  | none => simp [hf] at h
  | some s =>
    simp only [hf, bne_iff_ne, ne_eq] at h
    have h1 := set_count_le_one s ⟨p, 0⟩
    have he := set_erase_snd s ⟨p, 0⟩
    have hst := size_store m b s (set_erase s ⟨p, 0⟩).1 hf
    have hfs : map_find (map_store m b (set_erase s ⟨p, 0⟩).1) b = some (set_erase s ⟨p, 0⟩).1 := by
      simp [map_find_store, hf]
    have her := size_erase _ b _ hfs
    simp only
    split_ifs with hc
    · simp only [Bool.and_eq_true, List.isEmpty_iff] at hc
      have hl : (set_erase s ⟨p, 0⟩).1.length = 0 := by rw [hc.2]; rfl
      dsimp only
      omega
    · dsimp only
      omega

/-! ## Facts about `has`, `count(peer)` and `count(block)` -/

theorem has_of_mem {m : Blocks} (hm : WF m) (p : Nat) {e : Nat × PeerSet} (he : e ∈ m) :
    has m e.1 p = (set_count e.2 ⟨p, 0⟩ != 0) := by
  have hf : map_find m e.1 = some e.2 := (map_find_eq_some_iff hm.1 e.1 e.2).mpr he
  simp [has, hf]

theorem count_peer_eq_zero_iff {m : Blocks} (hm : WF m) (p : Nat) :
    count_peer m p = 0 ↔ ∀ b, has m b p = false := by
  simp only [count_peer, List.countP_eq_zero]
  constructor
  · intro h b
    cases hf : map_find m b with
    | none => simp [has, hf]
    | some s =>
      have he : (b, s) ∈ m := (map_find_eq_some_iff hm.1 b s).mp hf
      have := h (b, s) he
      simp only [has, hf]
      simpa using this
  · intro h e he
    rw [← has_of_mem hm p he, h e.1]
    simp

theorem count_peer_pos_of_has {m : Blocks} (hm : WF m) {b p : Nat} (h : has m b p = true) :
    1 ≤ count_peer m p := by
  by_contra hlt
  have h0 : count_peer m p = 0 := by omega
  have := (count_peer_eq_zero_iff hm p).mp h0 b
  simp [h] at this

theorem count_block_eq (m : Blocks) (b : Nat) :
    count_block m b = if (map_find m b).isSome then 1 else 0 := by
  unfold count_block map_count
  cases map_find m b <;> rfl

/-! ## Facts about `remove(peer)` -/

theorem remove_peer_eq (m : Blocks) (p : Nat) :
    remove_peer m p = (remove_each p (blocks_of_peer m p) m, blocks_of_peer m p) := rfl

theorem remove_each_cons (p b : Nat) (L : List Nat) (m : Blocks) :
    remove_each p (b :: L) m = remove_each p L (remove m b p).1 := rfl

theorem remove_each_WF {m : Blocks} (hm : WF m) (p : Nat) (L : List Nat) :
    WF (remove_each p L m) := by
  induction L generalizing m with
  | nil => exact hm
  | cons b L ih =>
    rw [remove_each_cons]
    exact ih (remove_WF hm b p)

theorem mem_triples_remove_each {m : Blocks} (hm : WF m) (p : Nat) (L : List Nat)
    (b' p' : Nat) (t' : Int) :
    (b', p', t') ∈ triples (remove_each p L m) ↔
      (b', p', t') ∈ triples m ∧ ¬ (b' ∈ L ∧ p' = p) := by
  induction L generalizing m with
  | nil => simp [remove_each]
  | cons b L ih =>
    rw [remove_each_cons, ih (remove_WF hm b p), mem_triples_remove hm]
    simp only [List.mem_cons]
    tauto

theorem size_remove_each {m : Blocks} (hm : WF m) (p : Nat) (L : List Nat) (hL : L.Nodup)
    (hall : ∀ b ∈ L, has m b p = true) :
    size (remove_each p L m) + L.length = size m := by
  induction L generalizing m with
  | nil => simp [remove_each]
  | cons b L ih =>
    obtain ⟨hb, hL'⟩ := List.nodup_cons.mp hL
    have h1 := size_remove m b p (hall b (List.mem_cons_self _ _))
    have hm1 : WF (remove m b p).1 := remove_WF hm b p
    have hall' : ∀ b' ∈ L, has (remove m b p).1 b' p = true := by
      intro b' hb'
      obtain ⟨t, ht⟩ := (has_iff_triples hm b' p).mp (hall b' (List.mem_cons_of_mem _ hb'))
      refine (has_iff_triples hm1 b' p).mpr ⟨t, (mem_triples_remove hm b p b' p t).mpr ⟨ht, ?_⟩⟩
      rintro ⟨rfl, _⟩
      exact hb hb'
    have h2 := ih hm1 hL' hall'
    rw [remove_each_cons, List.length_cons]
    omega

theorem mem_blocks_of_peer {m : Blocks} (hm : WF m) (p b : Nat) :
    b ∈ blocks_of_peer m p ↔ has m b p = true := by
  simp only [blocks_of_peer, List.mem_map, List.mem_filter]
  constructor
  · rintro ⟨e, ⟨he, hc⟩, rfl⟩
    rw [has_of_mem hm p he]
    exact hc
  · intro h
    unfold has at h
    cases hf : map_find m b with
    | none => simp [hf] at h
    | some s =>
      simp only [hf] at h
      exact ⟨(b, s), ⟨(map_find_eq_some_iff hm.1 b s).mp hf, h⟩, rfl⟩

theorem keys_nodup {m : Blocks} (hm : keys_sorted m) : (m.map Prod.fst).Nodup := by
  unfold keys_sorted at hm
  rw [List.Nodup, List.pairwise_map]
  exact hm.imp (fun h => Nat.ne_of_lt h)

theorem blocks_of_peer_nodup {m : Blocks} (hm : keys_sorted m) (p : Nat) :
    (blocks_of_peer m p).Nodup :=
  List.Nodup.sublist (List.Sublist.map _ (List.filter_sublist _)) (keys_nodup hm)

theorem blocks_of_peer_eq_nil {m : Blocks} (hm : WF m) (p : Nat) (h : ∀ b, has m b p = false) :
    blocks_of_peer m p = [] := by
  apply List.eq_nil_iff_forall_not_mem.mpr
  intro b hb
  have := (mem_blocks_of_peer hm p b).mp hb
  simp [h b] at this

theorem has_remove_peer_same {m : Blocks} (hm : WF m) (p b : Nat) :
    has (remove_peer m p).1 b p = false := by
  rw [remove_peer_eq]
  have hm' := remove_each_WF hm p (blocks_of_peer m p)
  cases hh : has (remove_each p (blocks_of_peer m p) m) b p with
  | false => rfl
  | true =>
    exfalso
    obtain ⟨t, ht⟩ := (has_iff_triples hm' b p).mp hh
    obtain ⟨h1, h2⟩ := (mem_triples_remove_each hm p _ b p t).mp ht
    exact h2 ⟨(mem_blocks_of_peer hm p b).mpr ((has_iff_triples hm b p).mpr ⟨t, h1⟩), rfl⟩

theorem mem_triples_remove_peer {m : Blocks} (hm : WF m) (p : Nat) (b' p' : Nat) (t' : Int) :
    (b', p', t') ∈ triples (remove_peer m p).1 ↔ (b', p', t') ∈ triples m ∧ p' ≠ p := by
  rw [remove_peer_eq]
  simp only [mem_triples_remove_each hm]
  constructor
  · rintro ⟨h1, h2⟩
    refine ⟨h1, ?_⟩
    rintro rfl
    exact h2 ⟨(mem_blocks_of_peer hm p' b').mpr ((has_iff_triples hm b' p').mpr ⟨t', h1⟩), rfl⟩
  · rintro ⟨h1, h2⟩
    exact ⟨h1, fun h => h2 h.2⟩

theorem has_congr {m m' : Blocks} (hm : WF m) (hm' : WF m') (b p : Nat)
    (h : ∀ t, (b, p, t) ∈ triples m' ↔ (b, p, t) ∈ triples m) : has m' b p = has m b p := by
  have h1 := has_iff_triples hm b p
  have h2 := has_iff_triples hm' b p
  cases hh : has m b p with
  | true =>
    obtain ⟨t, ht⟩ := h1.mp hh
    exact h2.mpr ⟨t, (h t).mpr ht⟩
  | false =>
    cases hh' : has m' b p with
    | false => rfl
    | true =>
      obtain ⟨t, ht⟩ := h2.mp hh'
      have := h1.mpr ⟨t, (h t).mp ht⟩
      simp [hh] at this

/-! ## Facts about `sentBefore` -/

theorem inner_loop_eq (c : Int) (k : Nat) (s : PeerSet) (a : List (Nat × Nat)) :
    s.foldl (fun acc sent => if sent.when < c then acc ++ [(k, sent.peer)] else acc) a =
      a ++ sent_of_entry c (k, s) := by
  induction s generalizing a with
  | nil => simp [sent_of_entry]
  | cons x xs ih =>
    simp only [List.foldl_cons, ih, sent_of_entry, List.filter_cons]
    by_cases h : x.when < c
    · simp [h]
    · simp [h]

theorem outer_loop_eq (c : Int) (m : Blocks) (a : List (Nat × Nat)) :
    m.foldl
      (fun sent_before perblock =>
        perblock.2.foldl
          (fun acc sent => if sent.when < c then acc ++ [(perblock.1, sent.peer)] else acc)
          sent_before)
      a = a ++ m.flatMap (sent_of_entry c) := by
  induction m generalizing a with
  | nil => simp
  | cons e rest ih =>
    rw [List.foldl_cons, inner_loop_eq, ih, List.flatMap_cons, List.append_assoc]

theorem sentBefore_eq (m : Blocks) (c : Int) : sentBefore m c = m.flatMap (sent_of_entry c) := by
  simp [sentBefore, outer_loop_eq]

theorem mem_sentBefore (m : Blocks) (c : Int) (b p : Nat) :
    (b, p) ∈ sentBefore m c ↔ ∃ t, (b, p, t) ∈ triples m ∧ t < c := by
  simp only [sentBefore_eq, sent_of_entry, triples, List.mem_flatMap, List.mem_map,
    List.mem_filter, decide_eq_true_eq, Prod.mk.injEq]
  constructor
  · rintro ⟨e, he, x, ⟨hx, hlt⟩, h1, h2⟩
    exact ⟨x.when, ⟨e, he, x, hx, h1, h2, rfl⟩, hlt⟩
  · rintro ⟨t, ⟨e, he, x, hx, h1, h2, h3⟩, hlt⟩
    exact ⟨e, he, x, ⟨hx, h3 ▸ hlt⟩, h1, h2⟩

theorem peers_nodup {s : PeerSet} (hs : set_wf s) : (s.map peer_at.peer).Nodup := by
  unfold set_wf at hs
  rw [List.Nodup, List.pairwise_map]
  exact hs.imp (fun h => Nat.ne_of_lt h)

theorem sent_of_entry_nodup (c : Int) {e : Nat × PeerSet} (he : set_wf e.2) :
    (sent_of_entry c e).Nodup := by
  unfold sent_of_entry
  have h1 : ((e.2.filter (fun x => decide (x.when < c))).map peer_at.peer).Nodup :=
    List.Nodup.sublist (List.Sublist.map _ (List.filter_sublist _)) (peers_nodup he)
  have h2 : ((e.2.filter (fun x => decide (x.when < c))).map (fun x => (e.1, x.peer))) =
      ((e.2.filter (fun x => decide (x.when < c))).map peer_at.peer).map (fun q => (e.1, q)) := by
    simp [List.map_map]
  rw [h2]
  exact h1.map (fun a b h => (Prod.mk.injEq _ _ _ _ ▸ h).2)

theorem sentBefore_nodup {m : Blocks} (hm : WF m) (c : Int) : (sentBefore m c).Nodup := by
  rw [sentBefore_eq, List.nodup_flatMap]
  refine ⟨fun e he => sent_of_entry_nodup c (hm.2 e he), ?_⟩
  have hk : m.Pairwise (fun a b => a.1 < b.1) := hm.1
  refine hk.imp ?_
  intro a b hab
  simp only [Function.onFun, List.disjoint_left, sent_of_entry, List.mem_map, List.mem_filter]
  rintro x ⟨y, _, rfl⟩ ⟨z, _, hz⟩
  simp only [Prod.mk.injEq] at hz
  omega

/-! ## Facts about `remove(block)` -/

theorem mem_triples_remove_block {m : Blocks} (hm : WF m) (b : Nat) (b' p' : Nat) (t' : Int) :
    (b', p', t') ∈ triples (remove_block m b).1 ↔ (b', p', t') ∈ triples m ∧ b' ≠ b := by
  unfold remove_block
  cases hf : map_find m b with
  | none =>
    simp only
    constructor
    · intro h
      refine ⟨h, ?_⟩
      rintro rfl
      obtain ⟨s, hs, _⟩ := (mem_triples_iff hm.1 b' p' t').mp h
      rw [hf] at hs
      cases hs
    · exact fun h => h.1
  | some s =>
    simp only
    rw [mem_triples_iff (map_erase_sorted hm.1 b), mem_triples_iff hm.1, map_find_erase hm.1]
    by_cases hb : b' = b
    · simp [hb]
    · simp [hb]

theorem remove_block_WF {m : Blocks} (hm : WF m) (b : Nat) : WF (remove_block m b).1 := by
  unfold remove_block
  cases hf : map_find m b with
  | none => exact hm
  | some s => exact map_erase_WF hm b

theorem mem_remove_block_snd {m : Blocks} (hm : WF m) (b p : Nat) :
    p ∈ (remove_block m b).2 ↔ has m b p = true := by
  rw [has_iff_find hm]
  unfold remove_block
  cases hf : map_find m b with
  | none => simp
  | some s => simp

theorem remove_block_snd_nodup {m : Blocks} (hm : WF m) (b : Nat) :
    (remove_block m b).2.Nodup := by
  unfold remove_block
  cases hf : map_find m b with
  | none => simp
  | some s => exact peers_nodup (map_find_wf hm hf)

theorem map_find_remove_block {m : Blocks} (hm : WF m) (b b' : Nat) :
    map_find (remove_block m b).1 b' = if b' = b then none else map_find m b' := by
  unfold remove_block
  cases hf : map_find m b with
  | none =>
    by_cases hb : b' = b
    · simp [hb, hf]
    · simp [hb]
  | some s => exact map_find_erase hm.1 b b'

theorem has_remove_same {m : Blocks} (hm : WF m) (b p : Nat) :
    has (remove m b p).1 b p = false := by
  cases hh : has (remove m b p).1 b p with
  | false => rfl
  | true =>
    exfalso
    obtain ⟨t, ht⟩ := (has_iff_triples (remove_WF hm b p) b p).mp hh
    exact ((mem_triples_remove hm b p b p t).mp ht).2 ⟨rfl, rfl⟩

theorem has_add_self {m : Blocks} (hm : WF m) (b p : Nat) (t : Int) :
    has (add m b p t).1 b p = true := by
  cases hh : has m b p with
  | true => rw [add_of_has hm b p t hh]; exact hh
  | false =>
    exact (has_iff_triples (add_WF hm b p t) b p).mpr
      ⟨t, ((add_of_not_has hm b p t hh).2 _).mpr (Or.inr rfl)⟩

/-! ## The scenario of the specification -/

theorem lt_peers (A B : Nat) (t t' : Int) : peer_at.lt ⟨A, t⟩ ⟨B, t'⟩ = decide (A < B) := by
  by_cases h1 : A < B
  · simp [h1, peer_at_lt_iff]
  · have := peer_at_lt_iff ⟨A, t⟩ ⟨B, t'⟩
    simp only [h1, iff_false, Bool.not_eq_true] at this
    simp [h1, this]

theorem scenario_eq (A B : Nat) (h : A ≠ B) :
    scenario A B =
      if A < B then
        [(1, [⟨A, 100⟩]), (2, [⟨A, 100⟩, ⟨B, 105⟩]), (3, [⟨A, 100⟩])]
      else
        [(1, [⟨A, 100⟩]), (2, [⟨B, 105⟩, ⟨A, 100⟩]), (3, [⟨A, 100⟩])] := by
  by_cases h1 : A < B
  · simp [scenario, add, empty, map_subscript, map_find, map_store, set_emplace, lt_peers, h1]
  · have h2 : B < A := by omega
    simp [scenario, add, empty, map_subscript, map_find, map_store, set_emplace, lt_peers, h1, h2]

theorem scenario_sentBefore (A B : Nat) (h : A ≠ B) :
    sentBefore (scenario A B) 102 = [(1, A), (2, A), (3, A)] := by
  rw [scenario_eq A B h]
  by_cases h1 : A < B
  · simp [h1, sentBefore]
  · simp [h1, sentBefore]

theorem scenario_remove_peer (A B : Nat) (h : A ≠ B) :
    (remove_peer (scenario A B) A).2 = [1, 2, 3] ∧
      (remove_peer (scenario A B) A).1 = [(2, [⟨B, 105⟩])] := by
  rw [scenario_eq A B h]
  by_cases h1 : A < B
  · have h2 : ¬ B < A := by omega
    simp [h1, h2, remove_peer, remove, map_find, map_store, map_erase, set_erase, set_count,
      lt_peers]
  · have h2 : B < A := by omega
    simp [h1, h2, remove_peer, remove, map_find, map_store, map_erase, set_erase, set_count,
      lt_peers]

theorem scenario_count_block (A B : Nat) : count_block (scenario A B) 2 = 1 := by
  simp [scenario, count_block, map_count, map_find_add]

/-! ## Every reachable state satisfies the ordering invariant -/

theorem remove_peer_WF {m : Blocks} (hm : WF m) (p : Nat) : WF (remove_peer m p).1 := by
  rw [remove_peer_eq]
  exact remove_each_WF hm p _

theorem reachable_WF {m : Blocks} (h : Reachable m) : WF m := by
  induction h with
  | init => exact WF_empty
  | add m b p t _ ih => exact add_WF ih b p t
  | remove m b p _ ih => exact remove_WF ih b p
  | remove_peer m p _ ih => exact remove_peer_WF ih p
  | remove_block m b _ ih => exact remove_block_WF ih b

/-! ## The claims about the registry -/

/-- C1: `add(b, p, t)` on an ordered registry yields an ordered registry; when a request
for `(b, p)` already exists it returns `false` and leaves the state, hence the set of
triples, unchanged; otherwise it returns `true` and the triples of the new state are exactly
the old triples together with `(b, p, t)`. -/
theorem C1_add_contract (m : Blocks) (hm : WF m) (b p : Nat) (t : Int) :
    WF (add m b p t).1 ∧
    ((∃ t0, (b, p, t0) ∈ triples m) →
      (add m b p t).2 = false ∧ (add m b p t).1 = m ∧
        ∀ x, x ∈ triples (add m b p t).1 ↔ x ∈ triples m) ∧
    ((¬ ∃ t0, (b, p, t0) ∈ triples m) →
      (add m b p t).2 = true ∧
        ∀ x, x ∈ triples (add m b p t).1 ↔ x ∈ triples m ∨ x = (b, p, t)) := by
  refine ⟨add_WF hm b p t, ?_, ?_⟩
  · intro hex
    have hh : has m b p = true := (has_iff_triples hm b p).mpr hex
    rw [add_of_has hm b p t hh]
    exact ⟨rfl, rfl, fun _ => Iff.rfl⟩
  · intro hno
    have hh : has m b p = false := by
      cases hc : has m b p with
      | false => rfl
      | true => exact absurd ((has_iff_triples hm b p).mp hc) hno
    exact add_of_not_has hm b p t hh

/-- Witness of C1 on the scenario registry: block 2 is already requested from peer 10, so a
second `add` reports `false`. -/
theorem C1_add_contract_witness :
    WF (scenario 10 20) ∧ (add (scenario 10 20) 2 10 200).2 = false :=
  ⟨by decide, ((C1_add_contract (scenario 10 20) (by decide) 2 10 200).2.1 ⟨100, by decide⟩).1⟩

/-- C2 (evaluation of the code): in the scenario, with A = 10 and B = 20, both peers have an
outstanding request for block 2, yet `count(2)` is 1; in every state `count(block)` is at
most 1, because it is the number of map entries with that key. -/
theorem C2_count_block_is_map_count :
    has (scenario 10 20) 2 10 = true ∧ has (scenario 10 20) 2 20 = true ∧
    map_find (scenario 10 20) 2 = some [⟨10, 100⟩, ⟨20, 105⟩] ∧
    count_block (scenario 10 20) 2 = 1 ∧
    (∀ A B : Nat, count_block (scenario A B) 2 = 1) ∧
    (∀ (m : Blocks) (b : Nat), count_block m b ≤ 1) := by
  refine ⟨by decide, by decide, by decide, by decide, scenario_count_block, ?_⟩
  intro m b
  rw [count_block_eq]
  split_ifs <;> omega

/-- C3: when no request for `(b, p)` exists, `add(b, p, t)` returns `true`, a following
`add(b, p, t2)` returns `false` for every `t2` (in particular every `t2 > t`), the only time
stored for `(b, p)` is still `t`, and `sentBefore(c)` contains `(b, p)` exactly when `t < c`,
after the first call as well as after both. -/
theorem C3_add_keeps_first_time (m : Blocks) (hm : WF m) (b p : Nat) (t t2 c : Int)
    (hno : has m b p = false) :
    (add m b p t).2 = true ∧
    (add (add m b p t).1 b p t2).2 = false ∧
    (∀ t', (b, p, t') ∈ triples (add (add m b p t).1 b p t2).1 ↔ t' = t) ∧
    ((b, p) ∈ sentBefore (add m b p t).1 c ↔ t < c) ∧
    ((b, p) ∈ sentBefore (add (add m b p t).1 b p t2).1 c ↔ t < c) := by
  have h1 := add_of_not_has hm b p t hno
  have hm1 : WF (add m b p t).1 := add_WF hm b p t
  have hh1 : has (add m b p t).1 b p = true := has_add_self hm b p t
  have h2 : add (add m b p t).1 b p t2 = ((add m b p t).1, false) := add_of_has hm1 b p t2 hh1
  have hmem : (b, p, t) ∈ triples (add m b p t).1 := (h1.2 _).mpr (Or.inr rfl)
  have hst : ∀ t', (b, p, t') ∈ triples (add m b p t).1 ↔ t' = t := by
    intro t'
    constructor
    · intro h; exact triples_functional hm1 h hmem
    · rintro rfl; exact hmem
  have hsb : (b, p) ∈ sentBefore (add m b p t).1 c ↔ t < c := by
    rw [mem_sentBefore]
    constructor
    · rintro ⟨t', ht', hlt⟩
      rw [← (hst t').mp ht']; exact hlt
    · intro hlt; exact ⟨t, hmem, hlt⟩
  rw [h2]
  exact ⟨h1.1, rfl, hst, hsb, hsb⟩

/-- Witness of C3: peer 10 requests block 7 of the scenario registry at 300, then at 400. -/
theorem C3_add_keeps_first_time_witness :
    has (scenario 10 20) 7 10 = false ∧
    (add (add (scenario 10 20) 7 10 300).1 7 10 400).2 = false :=
  ⟨by decide,
    (C3_add_keeps_first_time (scenario 10 20) (by decide) 7 10 300 400 350 (by decide)).2.1⟩

/-- C4: `remove(p)` returns, without duplicates, exactly the blocks `b` with `has(b, p)`
before the call; afterwards `count(p)` is 0 and `has(b, p)` is false for every block. -/
theorem C4_remove_peer_returns (m : Blocks) (hm : WF m) (p : Nat) :
    (remove_peer m p).2.Nodup ∧
    (∀ b, b ∈ (remove_peer m p).2 ↔ has m b p = true) ∧
    count_peer (remove_peer m p).1 p = 0 ∧
    (∀ b, has (remove_peer m p).1 b p = false) := by
  have hm' : WF (remove_peer m p).1 := by
    rw [remove_peer_eq]; exact remove_each_WF hm p _
  refine ⟨blocks_of_peer_nodup hm.1 p, fun b => mem_blocks_of_peer hm p b, ?_,
    has_remove_peer_same hm p⟩
  exact (count_peer_eq_zero_iff hm' p).mpr (has_remove_peer_same hm p)

/-- Witness of C4 on the scenario registry and peer 10. -/
theorem C4_remove_peer_returns_witness :
    WF (scenario 10 20) ∧ count_peer (remove_peer (scenario 10 20) 10).1 10 = 0 :=
  ⟨by decide, (C4_remove_peer_returns (scenario 10 20) (by decide) 10).2.2.1⟩

/-- C5: `remove(p)` leaves the requests of every other peer untouched (presence and stored
time), and `size()` drops by exactly the number of blocks returned.  In the scenario, for
distinct peers A and B, after `remove(A)` the size is 1 and `has(2, B)` holds. -/
theorem C5_remove_peer_frame (m : Blocks) (hm : WF m) (p : Nat) :
    (∀ p' b, p' ≠ p →
      has (remove_peer m p).1 b p' = has m b p' ∧
        ∀ t, (b, p', t) ∈ triples (remove_peer m p).1 ↔ (b, p', t) ∈ triples m) ∧
    size (remove_peer m p).1 + (remove_peer m p).2.length = size m ∧
    (∀ A B : Nat, A ≠ B →
      (∀ b, b ∈ (remove_peer (scenario A B) A).2 ↔ b ∈ [1, 2, 3]) ∧
      size (remove_peer (scenario A B) A).1 = 1 ∧
      has (remove_peer (scenario A B) A).1 2 B = true) := by
  have hm' : WF (remove_peer m p).1 := by
    rw [remove_peer_eq]; exact remove_each_WF hm p _
  refine ⟨?_, ?_, ?_⟩
  · intro p' b hne
    have htr : ∀ t, (b, p', t) ∈ triples (remove_peer m p).1 ↔ (b, p', t) ∈ triples m := by
      intro t
      rw [mem_triples_remove_peer hm]
      exact ⟨fun h => h.1, fun h => ⟨h, hne⟩⟩
    exact ⟨has_congr hm hm' b p' htr, htr⟩
  · rw [remove_peer_eq]
    exact size_remove_each hm p _ (blocks_of_peer_nodup hm.1 p)
      (fun b hb => (mem_blocks_of_peer hm p b).mp hb)
  · intro A B hAB
    obtain ⟨h1, h2⟩ := scenario_remove_peer A B hAB
    rw [h1, h2]
    refine ⟨fun _ => Iff.rfl, by simp [size], ?_⟩
    simp [has, map_find, set_count, lt_peers]

/-- Witness of C5 on the scenario registry and peer 10: three requests disappear. -/
theorem C5_remove_peer_frame_witness :
    WF (scenario 10 20) ∧
    size (remove_peer (scenario 10 20) 10).1 + (remove_peer (scenario 10 20) 10).2.length =
      size (scenario 10 20) :=
  ⟨by decide, (C5_remove_peer_frame (scenario 10 20) (by decide) 10).2.1⟩

/-- C6: `remove(b, p)` returns `true` exactly when a request for `(b, p)` existed; afterwards
`has(b, p)` is false, every other pair keeps its presence and its stored time, and when the
call returns `false` the state is unchanged. -/
theorem C6_remove_one (m : Blocks) (hm : WF m) (b p : Nat) :
    ((remove m b p).2 = true ↔ has m b p = true) ∧
    has (remove m b p).1 b p = false ∧
    (∀ b' p', (b', p') ≠ (b, p) →
      has (remove m b p).1 b' p' = has m b' p' ∧
        ∀ t, (b', p', t) ∈ triples (remove m b p).1 ↔ (b', p', t) ∈ triples m) ∧
    ((remove m b p).2 = false → (remove m b p).1 = m) := by
  refine ⟨by rw [remove_snd], has_remove_same hm b p, ?_, ?_⟩
  · intro b' p' hne
    have htr : ∀ t, (b', p', t) ∈ triples (remove m b p).1 ↔ (b', p', t) ∈ triples m := by
      intro t
      rw [mem_triples_remove hm]
      refine ⟨fun h => h.1, fun h => ⟨h, ?_⟩⟩
      rintro ⟨rfl, rfl⟩
      exact hne rfl
    exact ⟨has_congr hm (remove_WF hm b p) b' p' htr, htr⟩
  · intro h
    rw [remove_snd] at h
    rw [remove_of_not_has m b p h]

/-- Witness of C6: removing the request of peer 20 for block 2 from the scenario registry. -/
theorem C6_remove_one_witness :
    WF (scenario 10 20) ∧ has (remove (scenario 10 20) 2 20).1 2 20 = false :=
  ⟨by decide, (C6_remove_one (scenario 10 20) (by decide) 2 20).2.1⟩

/-- C7: `sentBefore(c)` returns exactly the pairs whose stored time is strictly below `c`,
a request stored with time `c` itself is not returned, and no pair is returned twice.  In the
scenario, for distinct peers A and B, `sentBefore(102)` is `(1,A), (2,A), (3,A)`. -/
theorem C7_sentBefore (m : Blocks) (hm : WF m) (c : Int) :
    (∀ b p, (b, p) ∈ sentBefore m c ↔ ∃ t, (b, p, t) ∈ triples m ∧ t < c) ∧
    (∀ b p, (b, p, c) ∈ triples m → (b, p) ∉ sentBefore m c) ∧
    (sentBefore m c).Nodup ∧
    (∀ A B : Nat, A ≠ B → sentBefore (scenario A B) 102 = [(1, A), (2, A), (3, A)]) := by
  refine ⟨mem_sentBefore m c, ?_, sentBefore_nodup hm c, scenario_sentBefore⟩
  intro b p hc hin
  obtain ⟨t, ht, hlt⟩ := (mem_sentBefore m c b p).mp hin
  have := triples_functional hm ht hc
  omega

/-- Witness of C7 on the scenario registry with cutoff 105: the request of peer 20, sent at
105, is not returned. -/
theorem C7_sentBefore_witness :
    WF (scenario 10 20) ∧ (2, 20) ∉ sentBefore (scenario 10 20) 105 :=
  ⟨by decide, (C7_sentBefore (scenario 10 20) (by decide) 105).2.1 2 20 (by decide)⟩

/-- C8: `remove(b)` returns, without duplicates, exactly the peers `p` with `has(b, p)`
before the call; afterwards `has(b, p)` is false for every peer and `count(b)` is 0, and the
requests for every other block are unchanged. -/
theorem C8_remove_block (m : Blocks) (hm : WF m) (b : Nat) :
    (remove_block m b).2.Nodup ∧
    (∀ p, p ∈ (remove_block m b).2 ↔ has m b p = true) ∧
    (∀ p, has (remove_block m b).1 b p = false) ∧
    count_block (remove_block m b).1 b = 0 ∧
    (∀ b', b' ≠ b →
      map_find (remove_block m b).1 b' = map_find m b' ∧
        ∀ p' t, (b', p', t) ∈ triples (remove_block m b).1 ↔ (b', p', t) ∈ triples m) := by
  have hf : map_find (remove_block m b).1 b = none := by
    rw [map_find_remove_block hm]; simp
  refine ⟨remove_block_snd_nodup hm b, mem_remove_block_snd hm b, ?_, ?_, ?_⟩
  · intro p
    simp [has, hf]
  · simp [count_block, map_count, hf]
  · intro b' hne
    refine ⟨by rw [map_find_remove_block hm]; simp [hne], ?_⟩
    intro p' t
    rw [mem_triples_remove_block hm]
    exact ⟨fun h => h.1, fun h => ⟨h, hne⟩⟩

/-- Witness of C8: removing block 2 from the scenario registry. -/
theorem C8_remove_block_witness :
    WF (scenario 10 20) ∧ count_block (remove_block (scenario 10 20) 2).1 2 = 0 :=
  ⟨by decide, (C8_remove_block (scenario 10 20) (by decide) 2).2.2.2.1⟩

/-- C9: if `add(b, p, t)` returns `true` then immediately afterwards `has(b, p)` is true,
`count(b) >= 1` and `count(p) >= 1`; after a subsequent `remove(b, p)`, `has(b, p)` is
false. -/
theorem C9_add_then_queries (m : Blocks) (hm : WF m) (b p : Nat) (t : Int)
    (_hadd : (add m b p t).2 = true) :
    has (add m b p t).1 b p = true ∧
    1 ≤ count_block (add m b p t).1 b ∧
    1 ≤ count_peer (add m b p t).1 p ∧
    has (remove (add m b p t).1 b p).1 b p = false := by
  have hm1 : WF (add m b p t).1 := add_WF hm b p t
  have hh : has (add m b p t).1 b p = true := has_add_self hm b p t
  refine ⟨hh, ?_, count_peer_pos_of_has hm1 hh, has_remove_same hm1 b p⟩
  rw [count_block_eq, map_find_add]
  simp

/-- Witness of C9: peer 20 requests block 3 of the scenario registry. -/
theorem C9_add_then_queries_witness :
    WF (scenario 10 20) ∧ (add (scenario 10 20) 3 20 110).2 = true ∧
    has (add (scenario 10 20) 3 20 110).1 3 20 = true :=
  ⟨by decide, by decide,
    (C9_add_then_queries (scenario 10 20) (by decide) 3 20 110 (by decide)).1⟩

/-- C10: `remove(p)` is idempotent: a second call right after the first returns the empty
sequence and leaves the state as it is; and on a state in which `p` has no outstanding
request `remove(p)` returns the empty sequence and changes nothing. -/
theorem C10_remove_peer_idempotent (m : Blocks) (hm : WF m) (p : Nat) :
    remove_peer (remove_peer m p).1 p = ((remove_peer m p).1, []) ∧
    ((∀ b, has m b p = false) → remove_peer m p = (m, [])) := by
  have key : ∀ m' : Blocks, WF m' → (∀ b, has m' b p = false) → remove_peer m' p = (m', []) := by
    intro m' hm' h
    rw [remove_peer_eq, blocks_of_peer_eq_nil hm' p h]
    rfl
  have hm' : WF (remove_peer m p).1 := by
    rw [remove_peer_eq]; exact remove_each_WF hm p _
  exact ⟨key _ hm' (has_remove_peer_same hm p), key m hm⟩

/-- Witness of C10 on the scenario registry and peer 10. -/
theorem C10_remove_peer_idempotent_witness :
    WF (scenario 10 20) ∧
    (remove_peer (remove_peer (scenario 10 20) 10).1 10).2 = [] :=
  ⟨by decide,
    congrArg Prod.snd (C10_remove_peer_idempotent (scenario 10 20) (by decide) 10).1⟩

/-! ## Counting requests in the two views -/

theorem triples_cons (e : Nat × PeerSet) (rest : Blocks) :
    triples (e :: rest) = e.2.map (fun x => (e.1, x.peer, x.when)) ++ triples rest := by
  simp [triples]

theorem WF_cons {e : Nat × PeerSet} {rest : Blocks} (h : WF (e :: rest)) :
    set_wf e.2 ∧ WF rest ∧ ∀ x ∈ rest, e.1 < x.1 := by
  obtain ⟨hk, hs⟩ := h
  obtain ⟨h1, h2⟩ := keys_sorted_cons.mp hk
  exact ⟨hs e (List.mem_cons_self _ _), ⟨h2, fun x hx => hs x (List.mem_cons_of_mem _ hx)⟩, h1⟩

theorem size_eq_length_triples (m : Blocks) : size m = (triples m).length := by
  induction m with
  | nil => simp [size, triples]
  | cons e rest ih => rw [size_cons, triples_cons, List.length_append, List.length_map, ih]

theorem mem_pairs_iff {m : Blocks} (hm : WF m) (b p : Nat) :
    (b, p) ∈ pairs m ↔ has m b p = true := by
  rw [has_iff_triples hm]
  simp only [pairs, List.mem_map, Prod.mk.injEq]
  constructor
  · rintro ⟨⟨b', p', t'⟩, hx, h1, h2⟩
    simp only at h1 h2
    subst h1 h2
    exact ⟨t', hx⟩
  · rintro ⟨t, ht⟩
    exact ⟨(b, p, t), ht, rfl, rfl⟩

theorem pairs_nodup {m : Blocks} (hm : WF m) : (pairs m).Nodup := by
  unfold pairs
  refine List.Nodup.map_on ?_ ?_
  · rintro ⟨b, p, t⟩ hx ⟨b', p', t'⟩ hy h
    simp only [Prod.mk.injEq] at h
    obtain ⟨rfl, rfl⟩ := h
    rw [triples_functional hm hx hy]
  · induction m with
    | nil => simp [triples]
    | cons e rest ih =>
      obtain ⟨hs, hrest, hlt⟩ := WF_cons hm
      rw [triples_cons, List.nodup_append]
      refine ⟨?_, ih hrest, ?_⟩
      · refine List.Nodup.map_on ?_ ?_
        · intro x hx y hy h
          simp only [Prod.mk.injEq, true_and] at h
          exact set_wf_unique hs hx hy h.1
        · have := peers_nodup hs
          exact List.Nodup.of_map _ this
      · rw [List.disjoint_left]
        rintro ⟨b, p, t⟩ h1 h2
        simp only [List.mem_map, Prod.mk.injEq] at h1
        obtain ⟨x, _, hb, _, _⟩ := h1
        simp only [triples, List.mem_flatMap, List.mem_map, Prod.mk.injEq] at h2
        obtain ⟨e', he', y, _, hb', _, _⟩ := h2
        have := hlt e' he'
        omega

theorem size_eq_ncard {m : Blocks} (hm : WF m) :
    size m = Set.ncard {bp : Nat × Nat | has m bp.1 bp.2 = true} := by
  have hset : {bp : Nat × Nat | has m bp.1 bp.2 = true} = ↑(pairs m).toFinset := by
    ext ⟨b, p⟩
    simp [mem_pairs_iff hm]
  rw [hset, Set.ncard_coe_Finset, List.toFinset_card_of_nodup (pairs_nodup hm),
    size_eq_length_triples, pairs, List.length_map]

theorem count_peer_eq_length (m : Blocks) (p : Nat) :
    count_peer m p = (blocks_of_peer m p).length := by
  simp [count_peer, blocks_of_peer, List.countP_eq_length_filter]

theorem count_peer_eq_ncard {m : Blocks} (hm : WF m) (p : Nat) :
    count_peer m p = Set.ncard {b : Nat | has m b p = true} := by
  have hset : {b : Nat | has m b p = true} = ↑(blocks_of_peer m p).toFinset := by
    ext b
    simp [mem_blocks_of_peer hm]
  rw [hset, Set.ncard_coe_Finset, List.toFinset_card_of_nodup (blocks_of_peer_nodup hm.1 p),
    count_peer_eq_length]

theorem count_peers_of_set {s : PeerSet} (hs : set_wf s) (p : Nat) :
    List.count p (s.map peer_at.peer) = if set_count s ⟨p, 0⟩ != 0 then 1 else 0 := by
  by_cases h : set_count s ⟨p, 0⟩ ≠ 0
  · have hmem : p ∈ s.map peer_at.peer := by
      obtain ⟨x, hx, hxp⟩ := (set_count_ne_zero_iff hs ⟨p, 0⟩).mp h
      exact List.mem_map.mpr ⟨x, hx, hxp⟩
    rw [List.count_eq_one_of_mem (peers_nodup hs) hmem]
    simp [h]
  · have hnot : p ∉ s.map peer_at.peer := by
      intro hmem
      obtain ⟨x, hx, hxp⟩ := List.mem_map.mp hmem
      exact h ((set_count_ne_zero_iff hs ⟨p, 0⟩).mpr ⟨x, hx, hxp⟩)
    rw [List.count_eq_zero_of_not_mem hnot]
    simp only [ne_eq, not_not] at h
    simp [h]

theorem count_peer_eq_count {m : Blocks} (hm : WF m) (p : Nat) :
    List.count p ((triples m).map (fun x => x.2.1)) = count_peer m p := by
  induction m with
  | nil => simp [triples, count_peer]
  | cons e rest ih =>
    obtain ⟨hs, hrest, _⟩ := WF_cons hm
    have h1 : (e.2.map (fun x => (e.1, x.peer, x.when))).map (fun x => x.2.1) =
        e.2.map peer_at.peer := by
      simp [List.map_map]
    rw [triples_cons, List.map_append, List.count_append, ih hrest, h1, count_peers_of_set hs]
    simp only [count_peer, List.countP_cons]
    split_ifs <;> omega

theorem size_eq_sum_count_peer {m : Blocks} (hm : WF m) :
    size m = ((peers_of m).map (count_peer m)).sum := by
  have h := List.sum_map_count_dedup_eq_length ((triples m).map (fun x => x.2.1))
  rw [List.length_map, ← size_eq_length_triples] at h
  rw [← h, peers_of]
  congr 1
  apply List.map_congr_left
  intro p _
  exact count_peer_eq_count hm p

theorem mem_peers_of {m : Blocks} (hm : WF m) (p : Nat) :
    p ∈ peers_of m ↔ ∃ b, has m b p = true := by
  simp only [peers_of, List.mem_dedup, List.mem_map]
  constructor
  · rintro ⟨⟨b, p', t⟩, hx, rfl⟩
    exact ⟨b, (has_iff_triples hm b p').mpr ⟨t, hx⟩⟩
  · rintro ⟨b, hb⟩
    obtain ⟨t, ht⟩ := (has_iff_triples hm b p).mp hb
    exact ⟨(b, p, t), ht, rfl⟩

/-! ## No block is left with an empty peer set -/

theorem set_emplace_ne_nil (s : PeerSet) (a : peer_at) : (set_emplace s a).1 ≠ [] := by
  cases s with
  | nil => simp [set_emplace]
  | cons y ys =>
    simp only [set_emplace]
    split_ifs <;> simp

theorem mem_of_find {m : Blocks} (hm : keys_sorted m) {e : Nat × PeerSet} :
    e ∈ m ↔ map_find m e.1 = some e.2 :=
  (map_find_eq_some_iff hm e.1 e.2).symm

theorem no_empty_add {m : Blocks} (hm : WF m) (h : no_empty_set m) (b p : Nat) (t : Int) :
    no_empty_set (add m b p t).1 := by
  intro e he
  have hf := (mem_of_find (add_WF hm b p t).1).mp he
  rw [map_find_add] at hf
  by_cases hb : e.1 = b
  · simp only [hb, if_true, Option.some.injEq] at hf
    rw [← hf]
    exact set_emplace_ne_nil _ _
  · simp only [hb, if_false] at hf
    exact h e ((mem_of_find hm.1).mpr hf)

theorem no_empty_remove {m : Blocks} (hm : WF m) (h : no_empty_set m) (b p : Nat) :
    no_empty_set (remove m b p).1 := by
  intro e he
  have hw := remove_WF hm b p
  have hf := (mem_of_find hw.1).mp he
  unfold remove at hf
  cases hfb : map_find m b with
  | none =>
    simp only [hfb] at hf
    exact h e ((mem_of_find hm.1).mpr hf)
  | some s =>
    have hs : s ≠ [] := h (b, s) ((map_find_eq_some_iff hm.1 b s).mp hfb)
    simp only [hfb] at hf
    split_ifs at hf with hc
    · rw [map_find_erase (map_store_sorted hm.1 b _), map_find_store] at hf
      by_cases hb : e.1 = b
      · simp [hb] at hf
      · simp only [hb, if_false] at hf
        exact h e ((mem_of_find hm.1).mpr hf)
    · rw [map_find_store] at hf
      by_cases hb : e.1 = b
      · simp only [hb, if_true, hfb, Option.map_some', Option.some.injEq] at hf
        rw [← hf]
        intro hnil
        simp only [Bool.and_eq_true, bne_iff_ne, ne_eq, List.isEmpty_iff, not_and] at hc
        by_cases hr : (set_erase s ⟨p, 0⟩).2 = 0
        · have h0 : set_count s ⟨p, 0⟩ = 0 := by
            rw [← (set_erase_snd s ⟨p, 0⟩).1]; exact hr
          rw [set_erase_of_absent s ⟨p, 0⟩ h0] at hnil
          exact hs hnil
        · exact hc hr hnil
      · simp only [hb, if_false] at hf
        exact h e ((mem_of_find hm.1).mpr hf)

theorem no_empty_remove_each {m : Blocks} (hm : WF m) (h : no_empty_set m) (p : Nat)
    (L : List Nat) : no_empty_set (remove_each p L m) := by
  induction L generalizing m with
  | nil => exact h
  | cons b L ih =>
    rw [remove_each_cons]
    exact ih (remove_WF hm b p) (no_empty_remove hm h b p)

theorem no_empty_remove_block {m : Blocks} (h : no_empty_set m) (b : Nat) :
    no_empty_set (remove_block m b).1 := by
  unfold remove_block
  cases hf : map_find m b with
  | none => exact h
  | some s => exact fun e he => h e (map_erase_mem m b e he)

theorem reachable_no_empty {m : Blocks} (h : Reachable m) : no_empty_set m := by
  induction h with
  | init => simp [no_empty_set, empty]
  | add m b p t hr ih => exact no_empty_add (reachable_WF hr) ih b p t
  | remove m b p hr ih => exact no_empty_remove (reachable_WF hr) ih b p
  | remove_peer m p hr ih =>
    rw [remove_peer_eq]
    exact no_empty_remove_each (reachable_WF hr) ih p _
  | remove_block m b hr ih => exact no_empty_remove_block ih b

theorem reachable_scenario (A B : Nat) : Reachable (scenario A B) :=
  Reachable.add _ 2 B 105 (Reachable.add _ 3 A 100 (Reachable.add _ 2 A 100
    (Reachable.add _ 1 A 100 Reachable.init)))

theorem count_block_pos_iff {m : Blocks} (hm : WF m) (hne : no_empty_set m) (b : Nat) :
    0 < count_block m b ↔ ∃ p, has m b p = true := by
  rw [count_block_eq]
  constructor
  · intro h
    cases hf : map_find m b with
    | none => simp [hf] at h
    | some s =>
      have hs : s ≠ [] := hne (b, s) ((map_find_eq_some_iff hm.1 b s).mp hf)
      obtain ⟨x, hx⟩ := List.exists_mem_of_ne_nil s hs
      exact ⟨x.peer, (has_iff_find hm b x.peer).mpr ⟨s, hf, x, hx, rfl⟩⟩
  · rintro ⟨p, hp⟩
    obtain ⟨s, hs, _⟩ := (has_iff_find hm b p).mp hp
    simp [hs]

/-! ## The claims about the two views and about empty peer sets -/

/-- C11: `size()` is the number of distinct (block, peer) pairs with `has(block, peer)`, for
every peer `count(peer)` is the number of blocks `b` with `has(b, peer)`, and `size()` is the
sum of `count(p)` over the distinct peers `p` that appear in the registry. -/
theorem C11_views_agree (m : Blocks) (hm : WF m) :
    size m = Set.ncard {bp : Nat × Nat | has m bp.1 bp.2 = true} ∧
    (∀ p, count_peer m p = Set.ncard {b : Nat | has m b p = true}) ∧
    (peers_of m).Nodup ∧
    (∀ p, p ∈ peers_of m ↔ ∃ b, has m b p = true) ∧
    size m = ((peers_of m).map (count_peer m)).sum :=
  ⟨size_eq_ncard hm, count_peer_eq_ncard hm, List.nodup_dedup _, mem_peers_of hm,
    size_eq_sum_count_peer hm⟩

/-- Witness of C11 on the scenario registry: four requests, three of peer 10, one of 20. -/
theorem C11_views_agree_witness :
    WF (scenario 10 20) ∧
    size (scenario 10 20) = ((peers_of (scenario 10 20)).map (count_peer (scenario 10 20))).sum :=
  ⟨by decide, (C11_views_agree (scenario 10 20) (by decide)).2.2.2.2⟩

/-- C13: in every state reachable from the empty registry by `add`, `remove(block, peer)`,
`remove(peer)` and `remove(block)`, no block key is associated with an empty peer set; hence a
block for which no request is outstanding has no entry in the map. -/
theorem C13_no_empty_peer_set (m : Blocks) (hr : Reachable m) :
    (∀ e ∈ m, e.2 ≠ []) ∧
    (∀ b s, map_find m b = some s → s ≠ []) ∧
    (∀ b, (∀ p, has m b p = false) → map_find m b = none) := by
  have hm := reachable_WF hr
  have hne := reachable_no_empty hr
  refine ⟨hne, fun b s hf => hne (b, s) ((map_find_eq_some_iff hm.1 b s).mp hf), ?_⟩
  intro b hall
  cases hf : map_find m b with
  | none => rfl
  | some s =>
    exfalso
    have hpos : 0 < count_block m b := by rw [count_block_eq, hf]; simp
    obtain ⟨p, hp⟩ := (count_block_pos_iff hm hne b).mp hpos
    rw [hall p] at hp
    cases hp

/-- Witness of C13: the scenario registry after peer 10 disconnected, which emptied the peer
sets of blocks 1 and 3. -/
theorem C13_no_empty_peer_set_witness :
    Reachable (remove_peer (scenario 10 20) 10).1 ∧
    ∀ e ∈ (remove_peer (scenario 10 20) 10).1, e.2 ≠ [] :=
  ⟨Reachable.remove_peer _ 10 (reachable_scenario 10 20),
    (C13_no_empty_peer_set (remove_peer (scenario 10 20) 10).1
      (Reachable.remove_peer _ 10 (reachable_scenario 10 20))).1⟩

/-- C14: in every state reachable from the empty registry, `count(b) > 0` exactly when some
peer `p` has `has(b, p)`. -/
theorem C14_count_block_pos_iff (m : Blocks) (hr : Reachable m) (b : Nat) :
    0 < count_block m b ↔ ∃ p, has m b p = true :=
  count_block_pos_iff (reachable_WF hr) (reachable_no_empty hr) b

/-- Witness of C14 on the scenario registry and block 2. -/
theorem C14_count_block_pos_iff_witness :
    Reachable (scenario 10 20) ∧
    (0 < count_block (scenario 10 20) 2 ↔ ∃ p, has (scenario 10 20) 2 p = true) :=
  ⟨reachable_scenario 10 20, C14_count_block_pos_iff (scenario 10 20) (reachable_scenario 10 20) 2⟩

end ActiveRequests

/-! # The encrypted channel: round trip -/

namespace Crypto

theorem shared_secret_comm (P : Primitives) (a b : Nat) :
    public_of P b ^ a % P.modulus = public_of P a ^ b % P.modulus := by
  unfold public_of
  rw [← Nat.pow_mod, ← Nat.pow_mod, ← pow_mul, ← pow_mul, Nat.mul_comm]

theorem cipher_apply_fst_length (P : Primitives) (st : CipherState) (bs : List Nat) :
    (cipher_apply P st bs).2 = ⟨st.key, st.pos + bs.length⟩ := by
  induction bs generalizing st with
  | nil => simp [cipher_apply]
  | cons b bs ih =>
    simp only [cipher_apply, ih, List.length_cons]
    congr 1
    omega

theorem cipher_apply_involutive (P : Primitives) (st : CipherState) (bs : List Nat) :
    (cipher_apply P st (cipher_apply P st bs).1).1 = bs ∧
      (cipher_apply P st (cipher_apply P st bs).1).2 = (cipher_apply P st bs).2 := by
  induction bs generalizing st with
  | nil => simp [cipher_apply]
  | cons b bs ih =>
    simp only [cipher_apply, Nat.xor_cancel_right, (ih _).1, (ih _).2, and_self]

theorem handshake_ok (P : Primitives) (role : Role) (priv remote : Nat) (hash : List Nat)
    (h : valid_public P remote) :
    handshake P role priv remote hash =
      .ok ⟨role, priv, public_of P priv, some (remote ^ priv % P.modulus), some hash,
        some (cipher_init (derive_key P role (remote ^ priv % P.modulus) hash)),
        some (cipher_init (derive_key P role.other (remote ^ priv % P.modulus) hash))⟩ := by
  obtain ⟨h0, hlt⟩ := h
  have hc : ¬ (remote = 0 ∨ P.modulus ≤ remote) := by
    rintro (h | h)
    · exact h0 h
    · omega
  simp [handshake, create, computeSecret, computeSharedSecret, hc, bindContentHash,
    finalizeCiphers]

theorem Role.other_other (r : Role) : r.other.other = r := by
  cases r <;> rfl

theorem encrypt_decrypt_all (P : Primitives) (bufs : List (List Nat)) :
    ∀ (s r : SecureChannel) (st x y : CipherState),
      s.sendCipher = some st → s.receiveCipher = some x →
      r.receiveCipher = some st → r.sendCipher = some y →
      ∃ cts s' r', encrypt_all P s bufs = .ok (cts, s') ∧
        decrypt_all P r cts = .ok (bufs, r') := by
  induction bufs with
  | nil =>
    intro s r st x y _ _ _ _
    exact ⟨[], s, r, rfl, rfl⟩
  | cons b bs ih =>
    intro s r st x y h1 h2 h3 h4
    obtain ⟨cts, s', r', he, hd⟩ := ih
      { s with sendCipher := some (cipher_apply P st b).2 }
      { r with receiveCipher := some (cipher_apply P st b).2 }
      (cipher_apply P st b).2 x y rfl h2 rfl h4
    simp only [h2] at he
    simp only [h4] at hd
    refine ⟨(cipher_apply P st b).1 :: cts, s', r', ?_, ?_⟩
    · simp only [encrypt_all, tr_cryptoEncrypt, h1, h2, he]
    · have hinv := cipher_apply_involutive P st b
      simp only [decrypt_all, tr_cryptoDecrypt, h3, h4, hinv.1, hinv.2, hd]

theorem exchange_ok (P : Primitives) (sender : Role) (privSender privReceiver : Nat)
    (hash : List Nat) (bufs : List (List Nat))
    (hS : valid_public P (public_of P privSender))
    (hR : valid_public P (public_of P privReceiver)) :
    exchange P sender privSender privReceiver hash bufs = .ok bufs := by
  unfold exchange
  rw [handshake_ok P sender privSender _ hash hR, handshake_ok P sender.other privReceiver _ hash hS]
  simp only
  obtain ⟨cts, s', r', he, hd⟩ := encrypt_decrypt_all P bufs
    ⟨sender, privSender, public_of P privSender,
      some (public_of P privReceiver ^ privSender % P.modulus), some hash,
      some (cipher_init (derive_key P sender
        (public_of P privReceiver ^ privSender % P.modulus) hash)),
      some (cipher_init (derive_key P sender.other
        (public_of P privReceiver ^ privSender % P.modulus) hash))⟩
    ⟨sender.other, privReceiver, public_of P privReceiver,
      some (public_of P privSender ^ privReceiver % P.modulus), some hash,
      some (cipher_init (derive_key P sender.other
        (public_of P privSender ^ privReceiver % P.modulus) hash)),
      some (cipher_init (derive_key P sender.other.other
        (public_of P privSender ^ privReceiver % P.modulus) hash))⟩
    (cipher_init (derive_key P sender (public_of P privReceiver ^ privSender % P.modulus) hash))
    _ _ rfl rfl
    (by rw [Role.other_other, shared_secret_comm P privReceiver privSender]) rfl
  rw [he]
  simp only
  rw [hd]

/-- C12: two channels in complementary roles, each computing the shared secret from the
other's (valid) public key, binding the same content hash and initialising their ciphers, end
up with complementary ciphers, and every sequence of buffers encrypted by one and decrypted in
the same order by the other comes out as the original bytes. -/
theorem C12_round_trip (P : Primitives) (sender : Role) (privSender privReceiver : Nat)
    (hash : List Nat) (bufs : List (List Nat))
    (hS : valid_public P (public_of P privSender))
    (hR : valid_public P (public_of P privReceiver)) :
    (∃ s r, handshake P sender privSender (public_of P privReceiver) hash = Except.ok s ∧
      handshake P sender.other privReceiver (public_of P privSender) hash = Except.ok r ∧
      s.sendCipher = r.receiveCipher ∧ r.sendCipher = s.receiveCipher ∧
      s.sendCipher ≠ none ∧ r.sendCipher ≠ none) ∧
    exchange P sender privSender privReceiver hash bufs = Except.ok bufs := by
  refine ⟨⟨_, _, handshake_ok P sender privSender _ hash hR,
    handshake_ok P sender.other privReceiver _ hash hS, ?_, ?_, by simp, by simp⟩,
    exchange_ok P sender privSender privReceiver hash bufs hS hR⟩
  · simp only [Role.other_other, shared_secret_comm P privReceiver privSender]
  · simp only [shared_secret_comm P privReceiver privSender]

/-- Witness of C12 on the small instance: private values 6 and 15, a 20-byte content hash,
three buffers sent by the initiator. -/
theorem C12_round_trip_witness :
    valid_public toy (public_of toy 6) ∧ valid_public toy (public_of toy 15) ∧
    exchange toy Role.Initiator 6 15 (List.range 20) [[104, 105], [], [1, 2, 3, 255]] =
      Except.ok [[104, 105], [], [1, 2, 3, 255]] :=
  ⟨by decide, by decide,
    (C12_round_trip toy Role.Initiator 6 15 (List.range 20) [[104, 105], [], [1, 2, 3, 255]]
      (by decide) (by decide)).2⟩

end Crypto

/-! # The log message queue -/

namespace Log

theorem heap_set_same (heap : Heap) (a : Nat) (v : Option tr_log_message) :
    heap_set heap a v a = v := by
  simp [heap_set]

theorem heap_set_other (heap : Heap) (a x : Nat) (v : Option tr_log_message) (h : x ≠ a) :
    heap_set heap a v x = heap x := by
  simp [heap_set, h]

theorem head_ptr_append (a : Nat) (Q : List tr_log_message) (x : tr_log_message) :
    head_ptr a (Q ++ [x]) = some a := by
  cases Q <;> rfl

theorem tail_ref_append (a : Nat) (Q : List tr_log_message) (x : tr_log_message) :
    tail_ref a (Q ++ [x]) = TailRef.next_of a := by
  cases Q <;> rfl

theorem Seg_congr {heap heap' : Heap} (Q : List tr_log_message) :
    ∀ a, (∀ x, a ≤ x → x < a + Q.length → heap' x = heap x) → Seg heap a Q → Seg heap' a Q := by
  induction Q with
  | nil => intro a _ _; trivial
  | cons q Q ih =>
    intro a hx hs
    obtain ⟨h1, h2⟩ := hs
    refine ⟨?_, ih (a + 1) ?_ h2⟩
    · rw [hx a (Nat.le_refl a) (by simp), h1]
    · intro x hx1 hx2
      exact hx x (by omega) (by simp only [List.length_cons]; omega)

theorem Seg_last {heap : Heap} (Q : List tr_log_message) :
    ∀ a, Q ≠ [] → Seg heap a Q → ∃ n, heap (a + Q.length - 1) = some n := by
  induction Q with
  | nil => intro a h; exact absurd rfl h
  | cons q Q ih =>
    intro a _ hs
    obtain ⟨h1, h2⟩ := hs
    cases Q with
    | nil => exact ⟨_, by simpa using h1⟩
    | cons q' Q' =>
      obtain ⟨n, hn⟩ := ih (a + 1) (by simp) h2
      refine ⟨n, ?_⟩
      have : a + (q :: q' :: Q').length - 1 = a + 1 + (q' :: Q').length - 1 := by
        simp only [List.length_cons]; omega
      rw [this]; exact hn

theorem Seg_snoc {heap : Heap} (x n : tr_log_message) (e : Nat) (Q : List tr_log_message) :
    ∀ a, Q ≠ [] → e = a + Q.length → Seg heap a Q → heap (e - 1) = some n →
      Seg (heap_set (heap_set heap e (some { x with next := none })) (e - 1)
        (some { n with next := some e })) a (Q ++ [x]) := by
  induction Q with
  | nil => intro a h; exact absurd rfl h
  | cons q Q ih =>
    intro a _ he hs hn
    obtain ⟨h1, h2⟩ := hs
    simp only [List.length_cons] at he
    cases Q with
    | nil =>
      simp only [List.length_nil] at he
      have hea : e - 1 = a := by omega
      rw [hea] at hn ⊢
      rw [h1] at hn
      cases hn
      refine ⟨?_, ?_, trivial⟩
      · rw [heap_set_same]
        simp [head_ptr, he]
      · rw [heap_set_other _ _ _ _ (by omega), ← he, heap_set_same]
        rfl
    | cons q' Q' =>
      simp only [List.length_cons] at he
      refine ⟨?_, ?_⟩
      · rw [heap_set_other _ _ _ _ (by omega), heap_set_other _ _ _ _ (by omega), h1]
        rfl
      · exact ih (a + 1) (by simp) (by simp only [List.length_cons]; omega) h2 hn

theorem list_from_Seg {heap : Heap} (Q : List tr_log_message) :
    ∀ a fuel, Seg heap a Q → Q.length ≤ fuel →
      (list_from fuel heap (head_ptr a Q)).map payload = Q.map payload := by
  induction Q with
  | nil =>
    intro a fuel _ _
    cases fuel <;> simp [list_from, head_ptr]
  | cons q Q ih =>
    intro a fuel hs hf
    obtain ⟨h1, h2⟩ := hs
    cases fuel with
    | zero => simp at hf
    | succ fuel =>
      simp only [List.length_cons, Nat.add_le_add_iff_right] at hf
      have hh : head_ptr a (q :: Q) = some a := rfl
      rw [hh]
      simp only [list_from, h1, List.map_cons]
      rw [ih (a + 1) fuel h2 hf]
      rfl

theorem tr_logFreeQueue_single (fuel : Nat) (heap : Heap) (old : Nat) (msg : tr_log_message)
    (h : heap old = some msg) (hn : msg.next = none) :
    tr_logFreeQueue (fuel + 1) heap (some old) = some (heap_set heap old none) := by
  simp [tr_logFreeQueue, h, hn]


theorem accepted_iff (c : log_call) : accepted c = true ↔ ¬ c.buf_len < 0 ∧ c.buf ≠ [] := by
  simp [accepted, List.isEmpty_iff]

theorem add_rejected (MAX : Nat) (s : LogState) (c : log_call) (h : accepted c = false) :
    tr_logAddMessage MAX s c = some s := by
  have h' : ¬ (¬ c.buf_len < 0 ∧ c.buf ≠ []) := by
    rw [← accepted_iff, h]; simp
  unfold tr_logAddMessage
  by_cases h1 : c.buf_len < 0
  · simp [h1]
  · by_cases h2 : c.buf = []
    · simp [h1, h2]
    · exact absurd ⟨h1, h2⟩ h'

theorem node_of_next (c : log_call) (p : Option Nat) :
    ({ node_of c with next := p } : tr_log_message) =
      { level := c.level, line := c.line, when := c.now, name := c.name,
        message := c.buf.take c.buf_len.toNat, file := c.file, next := p } := rfl

theorem add_accepted_empty (MAX : Nat) (s : LogState) (c : log_call) (hrep : Rep s [])
    (hmax : 1 ≤ MAX) (hacc : accepted c = true) :
    ∃ s', tr_logAddMessage MAX s c = some s' ∧ Rep s' [node_of c] := by
  obtain ⟨base, hb, _, hq, htail, hlen, hen⟩ := hrep
  obtain ⟨h1, h2⟩ := (accepted_iff c).mp hacc
  simp only [tail_ref] at htail
  simp only [List.length_nil, Nat.cast_zero] at hlen
  have hgt : ¬ ((0 : Int) + 1 > INT_MAX) := by unfold INT_MAX; omega
  have hle : ¬ ((0 : Int) + 1 > (MAX : Int)) := by omega
  have heq : tr_logAddMessage MAX s c =
      some ⟨heap_set s.heap s.brk (some (node_of c)), s.brk + 1, s.myQueueEnabled,
        some s.brk, TailRef.next_of s.brk, 0 + 1⟩ := by
    simp only [tr_logAddMessage, h1, h2, if_false, tr_logGetQueueEnabled, hen, if_true,
      store_tail, htail, hlen, hgt, hle]
  refine ⟨_, heq, s.brk, rfl, ⟨?_, trivial⟩, rfl, ?_, ?_, hen⟩
  · simp only [heap_set_same]
    rfl
  · simp [tail_ref]
  · simp


theorem evict_oldest_eq (MAX : Nat) (s : LogState) (old : Nat) (msg : tr_log_message)
    (hq : s.myQueue = some old) (hh : s.heap old = some msg) (hb : 1 ≤ s.brk)
    (hlen : s.myQueueLength - 1 = MAX) :
    evict_oldest MAX s =
      some ⟨heap_set (heap_set s.heap old (some { msg with next := none })) old none, s.brk,
        s.myQueueEnabled, msg.next, s.myQueueTail, s.myQueueLength - 1⟩ := by
  obtain ⟨k, hk⟩ : ∃ k, s.brk = k + 1 := ⟨s.brk - 1, by omega⟩
  have hfree := tr_logFreeQueue_single k (heap_set s.heap old (some { msg with next := none }))
    old { msg with next := none } (heap_set_same _ _ _) rfl
  simp only [evict_oldest, hq, hh, hk, hfree, hlen, if_true]

theorem add_accepted_store (MAX : Nat) (s : LogState) (c : log_call) (a : Nat)
    (n : tr_log_message) (hacc : accepted c = true) (hen : s.myQueueEnabled = true)
    (htail : s.myQueueTail = TailRef.next_of a) (hh : s.heap a = some n) (ha : a ≠ s.brk)
    (hint : ¬ (s.myQueueLength + 1 > INT_MAX)) :
    tr_logAddMessage MAX s c =
      if s.myQueueLength + 1 > (MAX : Int) then
        evict_oldest MAX ⟨heap_set (heap_set s.heap s.brk (some (node_of c))) a
          (some { n with next := some s.brk }), s.brk + 1, s.myQueueEnabled, s.myQueue,
          TailRef.next_of s.brk, s.myQueueLength + 1⟩
      else
        some ⟨heap_set (heap_set s.heap s.brk (some (node_of c))) a
          (some { n with next := some s.brk }), s.brk + 1, s.myQueueEnabled, s.myQueue,
          TailRef.next_of s.brk, s.myQueueLength + 1⟩ := by
  obtain ⟨h1, h2⟩ := (accepted_iff c).mp hacc
  have hh' : heap_set s.heap s.brk (some (node_of c)) a = some n := by
    rw [heap_set_other _ _ _ _ ha, hh]
  simp only [tr_logAddMessage, h1, h2, if_false, tr_logGetQueueEnabled, hen, if_true,
    store_tail, htail, hh', hint]

theorem add_accepted_cons (MAX : Nat) (s : LogState) (c : log_call) (q : tr_log_message)
    (Q : List tr_log_message) (hrep : Rep s (q :: Q)) (hint : (MAX : Int) < INT_MAX)
    (hQ : (q :: Q).length ≤ MAX) (hacc : accepted c = true) :
    ∃ s', tr_logAddMessage MAX s c = some s' ∧ Rep s' (push MAX (q :: Q) (node_of c)) := by
  obtain ⟨base, hb, hseg, hq, htail, hlen, hen⟩ := hrep
  obtain ⟨n, hn⟩ := Seg_last (q :: Q) base (by simp) hseg
  rw [hb] at hn
  simp only [tail_ref] at htail
  have hbrk : 1 ≤ s.brk := by simp only [List.length_cons] at hb; omega
  have hi : ¬ (s.myQueueLength + 1 > INT_MAX) := by
    rw [hlen]; unfold INT_MAX at *; omega
  have hsnoc := Seg_snoc (node_of c) n s.brk (q :: Q) base (by simp) hb.symm hseg hn
  have hnode : ({ node_of c with next := none } : tr_log_message) = node_of c := rfl
  rw [hnode] at hsnoc
  rw [add_accepted_store MAX s c (s.brk - 1) n hacc hen htail hn (by omega) hi]
  by_cases hev : s.myQueueLength + 1 > (MAX : Int)
  · have hfull : (q :: Q).length = MAX := by rw [hlen] at hev; omega
    have hpush : push MAX (q :: Q) (node_of c) = Q ++ [node_of c] := by
      simp [push, hfull]
    have hcons : (q :: Q) ++ [node_of c] = q :: (Q ++ [node_of c]) := rfl
    rw [hcons] at hsnoc
    obtain ⟨hhead, hrest⟩ := hsnoc
    rw [head_ptr_append] at hhead
    have hev_eq := evict_oldest_eq MAX
      ⟨heap_set (heap_set s.heap s.brk (some (node_of c))) (s.brk - 1)
        (some { n with next := some s.brk }), s.brk + 1, s.myQueueEnabled, s.myQueue,
        TailRef.next_of s.brk, s.myQueueLength + 1⟩
      base _ hq hhead (Nat.le_add_left 1 s.brk)
      (by show s.myQueueLength + 1 - 1 = (MAX : Int); rw [hlen]; omega)
    rw [if_pos hev, hpush, hev_eq]
    refine ⟨_, rfl, base + 1, ?_, ?_, ?_, ?_, ?_, hen⟩
    · simp only [List.length_cons, List.length_append, List.length_nil] at hb ⊢
      omega
    · refine Seg_congr _ _ ?_ hrest
      intro x hx _
      have hxb : x ≠ base := by omega
      dsimp only
      rw [heap_set_other _ _ _ _ hxb, heap_set_other _ _ _ _ hxb]
    · simp only [head_ptr_append]
    · simp only [tail_ref_append, Nat.add_sub_cancel]
    · simp only [List.length_cons, List.length_append, List.length_nil] at hlen ⊢
      rw [hlen]
      push_cast
      omega
  · have hpush : push MAX (q :: Q) (node_of c) = (q :: Q) ++ [node_of c] := by
      rw [hlen] at hev
      have : ¬ ((q :: Q).length + 1 > MAX) := by omega
      simp only [push, this, if_false]
    rw [if_neg hev, hpush]
    refine ⟨_, rfl, base, ?_, hsnoc, ?_, ?_, ?_, hen⟩
    · simp only [List.length_cons, List.length_append, List.length_nil] at hb ⊢
      omega
    · rw [head_ptr_append]; exact hq
    · simp only [tail_ref_append, Nat.add_sub_cancel]
    · simp only [List.length_cons, List.length_append, List.length_nil] at hlen ⊢
      rw [hlen]
      push_cast
      omega


theorem push_nil (MAX : Nat) (hmax : 1 ≤ MAX) (x : tr_log_message) : push MAX [] x = [x] := by
  have : ¬ (0 + 1 > MAX) := by omega
  simp [push, this]

theorem push_length_le (MAX : Nat) (Q : List tr_log_message) (x : tr_log_message)
    (hQ : Q.length ≤ MAX) : (push MAX Q x).length ≤ MAX := by
  unfold push
  split_ifs with h
  · simp only [List.length_tail, List.length_append, List.length_singleton]
    omega
  · simp only [List.length_append, List.length_singleton]
    omega

theorem add_refines (MAX : Nat) (s : LogState) (c : log_call) (Q : List tr_log_message)
    (hrep : Rep s Q) (hmax : 1 ≤ MAX) (hint : (MAX : Int) < INT_MAX) (hQ : Q.length ≤ MAX) :
    ∃ s', tr_logAddMessage MAX s c = some s' ∧ Rep s' (abs_step MAX Q (Call.add c)) := by
  cases hacc : accepted c with
  | false =>
    refine ⟨s, add_rejected MAX s c hacc, ?_⟩
    simp only [abs_step, hacc]
    exact hrep
  | true =>
    simp only [abs_step, hacc, if_true]
    cases Q with
    | nil =>
      rw [push_nil MAX hmax]
      exact add_accepted_empty MAX s c hrep hmax hacc
    | cons q Q => exact add_accepted_cons MAX s c q Q hrep hint hQ hacc

theorem get_refines (s : LogState) (Q : List tr_log_message) (hrep : Rep s Q) :
    Rep (tr_logGetQueue s).2 [] := by
  obtain ⟨_, _, _, _, _, _, hen⟩ := hrep
  exact ⟨s.brk, rfl, trivial, rfl, rfl, rfl, hen⟩

theorem abs_step_length_le (MAX : Nat) (Q : List tr_log_message) (call : Call)
    (hQ : Q.length ≤ MAX) : (abs_step MAX Q call).length ≤ MAX := by
  cases call with
  | add c =>
    simp only [abs_step]
    split_ifs
    · exact push_length_le MAX Q _ hQ
    · exact hQ
  | get => simp [abs_step]

theorem step_refines (MAX : Nat) (s : LogState) (call : Call) (Q : List tr_log_message)
    (hrep : Rep s Q) (hmax : 1 ≤ MAX) (hint : (MAX : Int) < INT_MAX) (hQ : Q.length ≤ MAX) :
    ∃ s', step MAX s call = some s' ∧ Rep s' (abs_step MAX Q call) := by
  cases call with
  | add c => exact add_refines MAX s c Q hrep hmax hint hQ
  | get => exact ⟨_, rfl, get_refines s Q hrep⟩

theorem run_refines (MAX : Nat) (hmax : 1 ≤ MAX) (hint : (MAX : Int) < INT_MAX)
    (calls : List Call) :
    ∀ (s : LogState) (Q : List tr_log_message), Rep s Q → Q.length ≤ MAX →
      ∃ s', run MAX s calls = some s' ∧ Rep s' (abs_run MAX Q calls) ∧
        (abs_run MAX Q calls).length ≤ MAX := by
  induction calls with
  | nil => intro s Q hrep hQ; exact ⟨s, rfl, hrep, hQ⟩
  | cons call calls ih =>
    intro s Q hrep hQ
    obtain ⟨s1, h1, hrep1⟩ := step_refines MAX s call Q hrep hmax hint hQ
    obtain ⟨s2, h2, hrep2, hlen2⟩ := ih s1 _ hrep1 (abs_step_length_le MAX Q call hQ)
    refine ⟨s2, ?_, hrep2, hlen2⟩
    simp only [run, h1, h2]

theorem run_append (MAX : Nat) (l1 l2 : List Call) :
    ∀ s, run MAX s (l1 ++ l2) = (run MAX s l1).bind (fun s1 => run MAX s1 l2) := by
  induction l1 with
  | nil => intro s; rfl
  | cons call l1 ih =>
    intro s
    simp only [List.cons_append, run]
    cases step MAX s call with
    | none => rfl
    | some s1 => exact ih s1

theorem Rep_start : Rep start [] :=
  ⟨0, rfl, trivial, rfl, rfl, rfl, rfl⟩

theorem Rep_list_from {s : LogState} {Q : List tr_log_message} (hrep : Rep s Q) (fuel : Nat)
    (hf : s.brk ≤ fuel) :
    (list_from fuel s.heap s.myQueue).map payload = Q.map payload := by
  obtain ⟨base, hb, hseg, hq, _, _, _⟩ := hrep
  rw [hq]
  exact list_from_Seg Q base fuel hseg (by omega)

theorem Rep_length {s : LogState} {Q : List tr_log_message} (hrep : Rep s Q) (fuel : Nat)
    (hf : s.brk ≤ fuel) :
    ((list_from fuel s.heap s.myQueue).length : Int) = s.myQueueLength := by
  have h := congrArg List.length (Rep_list_from hrep fuel hf)
  simp only [List.length_map] at h
  obtain ⟨_, _, _, _, _, hlen, _⟩ := hrep
  rw [h, hlen]

theorem payload_node_of (c : log_call) : payload (node_of c) = node_of c := rfl

theorem push_drop (MAX : Nat) (H : List tr_log_message) (x : tr_log_message) :
    push MAX (H.drop (H.length - MAX)) x = (H ++ [x]).drop ((H ++ [x]).length - MAX) := by
  unfold push
  simp only [List.length_drop, List.length_append, List.length_singleton]
  by_cases h : H.length + 1 ≤ MAX
  · have h1 : H.length - MAX = 0 := by omega
    have h2 : H.length + 1 - MAX = 0 := by omega
    have h3 : ¬ (H.length - 0 + 1 > MAX) := by omega
    simp only [h1, h2, List.drop_zero, h3, if_false]
  · have h1 : H.length - (H.length - MAX) + 1 > MAX := by omega
    have h2 : H.length + 1 - MAX = (H.length - MAX) + 1 := by omega
    rw [if_pos h1, h2, ← List.drop_drop, List.drop_append_of_le_length (by omega),
      List.drop_one]

theorem abs_run_adds (MAX : Nat) (cs : List log_call) :
    ∀ H : List tr_log_message,
      abs_run MAX (H.drop (H.length - MAX)) (cs.map Call.add) =
        (H ++ (cs.filter accepted).map node_of).drop
          ((H ++ (cs.filter accepted).map node_of).length - MAX) := by
  induction cs with
  | nil => intro H; simp [abs_run]
  | cons c cs ih =>
    intro H
    simp only [List.map_cons, abs_run, List.foldl_cons, abs_step]
    cases hacc : accepted c with
    | false =>
      have := ih H
      simp only [abs_run] at this
      simp only [Bool.false_eq_true, if_false, this, List.filter_cons, hacc]
    | true =>
      have := ih (H ++ [node_of c])
      simp only [abs_run] at this
      simp only [if_true, push_drop, this, List.filter_cons, hacc, List.map_cons,
        List.append_assoc, List.singleton_append]


theorem map_payload_recent (MAX : Nat) (cs : List log_call) :
    (recent MAX cs).map payload = recent MAX cs := by
  unfold recent
  rw [← List.map_drop, List.map_map]
  congr 1

theorem recent_length (MAX : Nat) (cs : List log_call) :
    (recent MAX cs).length = min (cs.filter accepted).length MAX := by
  simp only [recent, List.length_drop, List.length_map]
  omega

theorem adds_from_empty (MAX : Nat) (hmax : 1 ≤ MAX) (hint : (MAX : Int) < INT_MAX)
    (s0 : LogState) (h0 : Rep s0 []) (cs : List log_call) :
    ∃ s, run MAX s0 (cs.map Call.add) = some s ∧ Rep s (recent MAX cs) := by
  obtain ⟨s, hrun, hrep, _⟩ := run_refines MAX hmax hint (cs.map Call.add) s0 [] h0 (by simp)
  refine ⟨s, hrun, ?_⟩
  have h := abs_run_adds MAX cs []
  simp only [List.length_nil, Nat.zero_sub, List.drop_zero, List.nil_append,
    List.length_map] at h
  rw [h] at hrep
  exact hrep

theorem tail_map_append (Q : List tr_log_message) (x : tr_log_message) (hQ : Q ≠ []) :
    ((Q ++ [x]).tail).map payload = (Q.map payload).tail ++ [payload x] := by
  cases Q with
  | nil => exact absurd rfl hQ
  | cons q Q => simp

/-- C15: with queueing enabled and a limit of at least 1 that fits an `int`, every sequence of
`tr_logAddMessage` and `tr_logGetQueue` calls from the empty queue runs without a failed
assertion or an invalid access; afterwards `myQueueLength` is the number of messages linked
from `myQueue` and is at most the limit; a further queued message either lengthens the queue
by one or, when the queue was full, drops exactly the oldest message and leaves the length at
the limit. -/
theorem C15_queue_length_invariant (MAX : Nat) (hmax : 1 ≤ MAX) (hint : (MAX : Int) < INT_MAX)
    (calls : List Call) :
    ∃ s, run MAX start calls = some s ∧
      (∀ fuel, s.brk ≤ fuel →
        ((list_from fuel s.heap s.myQueue).length : Int) = s.myQueueLength) ∧
      s.myQueueLength ≤ MAX ∧
      ∀ c, accepted c = true →
        ∃ s', tr_logAddMessage MAX s c = some s' ∧
          ((queued s').length : Int) = s'.myQueueLength ∧
          (s.myQueueLength < MAX →
            s'.myQueueLength = s.myQueueLength + 1 ∧
            (queued s').map payload = (queued s).map payload ++ [node_of c]) ∧
          (s.myQueueLength = MAX →
            s'.myQueueLength = MAX ∧
            (queued s').map payload = ((queued s).map payload).tail ++ [node_of c]) := by
  obtain ⟨s, hrun, hrep, hlen⟩ := run_refines MAX hmax hint calls start [] Rep_start (by simp)
  have hQlen : s.myQueueLength = ((abs_run MAX [] calls).length : Int) := by
    obtain ⟨_, _, _, _, _, h, _⟩ := hrep; exact h
  refine ⟨s, hrun, fun fuel hf => Rep_length hrep fuel hf, by rw [hQlen]; exact_mod_cast hlen, ?_⟩
  intro c hacc
  obtain ⟨s', hadd, hrep'⟩ := add_refines MAX s c _ hrep hmax hint hlen
  simp only [abs_step, hacc, if_true] at hrep'
  have hQ := Rep_list_from hrep s.brk (Nat.le_refl _)
  have hQ' := Rep_list_from hrep' s'.brk (Nat.le_refl _)
  have hlen' : s'.myQueueLength = ((push MAX (abs_run MAX [] calls) (node_of c)).length : Int) := by
    obtain ⟨_, _, _, _, _, h, _⟩ := hrep'; exact h
  refine ⟨s', hadd, Rep_length hrep' s'.brk (Nat.le_refl _), ?_, ?_⟩
  · intro hlt
    have hno : ¬ ((abs_run MAX [] calls).length + 1 > MAX) := by rw [hQlen] at hlt; omega
    simp only [push, hno, if_false] at hQ' hlen'
    refine ⟨?_, ?_⟩
    · rw [hlen', hQlen]; simp
    · unfold queued
      rw [hQ', hQ, List.map_append]
      rfl
  · intro heq
    have hfull : (abs_run MAX [] calls).length + 1 > MAX := by rw [hQlen] at heq; omega
    have hne : abs_run MAX [] calls ≠ [] := by
      intro h
      rw [h] at hfull
      simp only [List.length_nil] at hfull
      omega
    simp only [push, hfull, if_true] at hQ' hlen'
    refine ⟨?_, ?_⟩
    · rw [hlen']
      simp only [List.length_tail, List.length_append, List.length_singleton,
        Nat.add_sub_cancel]
      rw [← hQlen, heq]
    · unfold queued
      rw [hQ', hQ, tail_map_append _ _ hne]
      rfl

/-- Witness of C15: limit 2 and three queued messages. -/
theorem C15_queue_length_invariant_witness :
    1 ≤ 2 ∧ ((2 : Nat) : Int) < INT_MAX ∧
    ∃ s, run 2 start [Call.add (sample 1), Call.add (sample 2), Call.add (sample 3)] = some s ∧
      s.myQueueLength ≤ (2 : Nat) :=
  ⟨by decide, by decide,
    (C15_queue_length_invariant 2 (by decide) (by decide)
      [Call.add (sample 1), Call.add (sample 2), Call.add (sample 3)]).imp
      (fun _ h => ⟨h.1, h.2.2.1⟩)⟩

/-- C16: after the last drain (or from the start), `n` queued messages later, `tr_logGetQueue`
returns the most recent `min n limit` of them, oldest first, and leaves `myQueue` null and
`myQueueLength` 0, so that a `tr_logGetQueue` right after it returns the empty list. -/
theorem C16_get_queue_returns_recent (MAX : Nat) (hmax : 1 ≤ MAX)
    (hint : (MAX : Int) < INT_MAX) (pre : List Call) (cs : List log_call)
    (hpre : pre = [] ∨ ∃ p, pre = p ++ [Call.get]) :
    ∃ s, run MAX start (pre ++ cs.map Call.add) = some s ∧
      (∀ fuel, s.brk ≤ fuel →
        (list_from fuel (tr_logGetQueue s).2.heap (tr_logGetQueue s).1).map payload =
          ((cs.filter accepted).map node_of).drop ((cs.filter accepted).length - MAX)) ∧
      (((cs.filter accepted).map node_of).drop ((cs.filter accepted).length - MAX)).length =
        min (cs.filter accepted).length MAX ∧
      (tr_logGetQueue s).2.myQueue = none ∧
      (tr_logGetQueue s).2.myQueueLength = 0 ∧
      queued (tr_logGetQueue s).2 = [] ∧
      (tr_logGetQueue (tr_logGetQueue s).2).1 = none := by
  have hpre' : ∃ s0, run MAX start pre = some s0 ∧ Rep s0 [] := by
    rcases hpre with rfl | ⟨p, rfl⟩
    · exact ⟨start, rfl, Rep_start⟩
    · obtain ⟨s1, h1, hrep1, _⟩ := run_refines MAX hmax hint p start [] Rep_start (by simp)
      refine ⟨(tr_logGetQueue s1).2, ?_, get_refines s1 _ hrep1⟩
      rw [run_append, h1]
      rfl
  obtain ⟨s0, hrun0, hrep0⟩ := hpre'
  obtain ⟨s, hrun, hrep⟩ := adds_from_empty MAX hmax hint s0 hrep0 cs
  refine ⟨s, ?_, ?_, recent_length MAX cs, rfl, rfl, ?_, rfl⟩
  · rw [run_append, hrun0]
    exact hrun
  · intro fuel hf
    have h := Rep_list_from hrep fuel hf
    rw [map_payload_recent] at h
    exact h
  · unfold queued tr_logGetQueue
    cases s.brk <;> rfl

/-- Witness of C16: limit 2; one message, a drain, then three messages, of which the drain
returns the last two. -/
theorem C16_get_queue_returns_recent_witness :
    1 ≤ 2 ∧ ((2 : Nat) : Int) < INT_MAX ∧
    ([Call.add (sample 9), Call.get] = [] ∨
      ∃ p, [Call.add (sample 9), Call.get] = p ++ [Call.get]) ∧
    ∃ s, run 2 start ([Call.add (sample 9), Call.get] ++
        [sample 1, sample 2, sample 3].map Call.add) = some s ∧
      (list_from s.brk (tr_logGetQueue s).2.heap (tr_logGetQueue s).1).map payload =
        [node_of (sample 2), node_of (sample 3)] ∧
      (tr_logGetQueue (tr_logGetQueue s).2).1 = none :=
  ⟨by decide, by decide, Or.inr ⟨[Call.add (sample 9)], rfl⟩,
    (C16_get_queue_returns_recent 2 (by decide) (by decide) [Call.add (sample 9), Call.get]
      [sample 1, sample 2, sample 3] (Or.inr ⟨[Call.add (sample 9)], rfl⟩)).imp
      (fun s h => ⟨h.1, (h.2.1 s.brk (Nat.le_refl _)).trans (by decide), h.2.2.2.2.2.2⟩)⟩

/-- With a limit of 0 the second queued message fails: the first one was evicted while
`myQueueTail` still pointed into it. -/
theorem limit_zero_second_add_fails :
    (run 0 start [Call.add (sample 1)]).isSome = true ∧
    (run 0 start [Call.add (sample 1), Call.add (sample 2)]).isNone = true := by
  constructor <;> decide

end Log
